import Mathlib

/-! Shallow embedding of the nix-tree-rs dependency-graph engine and its
interactive navigation state machine, together with theorems checking the
engine against its specification.

Modelling conventions:
* Rust `String` ids are Lean `String`s; byte-level operations (`str::cmp`,
  `&s[..8]`, `to_lowercase`) are modelled on the character list `s.data`,
  which agrees with the byte view on the ASCII identifiers this program
  manipulates.
* Rust `u64`/`usize` arithmetic is `Nat`; `saturating_sub` is Nat
  subtraction, `min`-clamping is `Nat.min`.
* `HashSet`s are duplicate-free `List`s (insertion is cons-if-absent);
  `HashMap`s are association lists where insertion conses and lookup takes
  the most recent binding.
* Worklist loops (`while let Some(x) = v.pop()`) are modelled with an
  explicit fuel parameter large enough that the fuel never runs out
  (proved by the characterization theorems below).  The Rust `Vec` stack
  pops from the back; we cons work items at the front, which permutes the
  traversal order but, as the theorems show, not the computed set.
-/

namespace NixTree

/-- Byte-wise lexicographic string comparison, modelling Rust's `str::cmp`
(`a ≤ b`) on the ASCII identifiers used throughout. -/
def strLe : List Char → List Char → Bool
  | [], _ => true
  | _ :: _, [] => false
  | a :: as, b :: bs => if a = b then strLe as bs else decide (a < b)

/-- Per-character case folding, modelling `str::to_lowercase` on ASCII. -/
def lowerStr (s : String) : String := ⟨s.data.map Char.toLower⟩

/-- Substring test, modelling Rust's `str::contains`. -/
def containsSub (hay needle : String) : Bool := decide (needle.data <:+: hay.data)

/-- Drop the last character, modelling `String::pop`. -/
def strPop (s : String) : String := ⟨s.data.dropLast⟩

/-- Take the first `n` characters, modelling the byte slice `&s[..n]`. -/
def strTake (s : String) (n : Nat) : String := ⟨s.data.take n⟩

/-! ### src/store_path.rs -/

/-- One store artifact (struct `StorePath`). -/
structure StorePath where
  path : String
  hash : String
  name : String
  nar_size : Nat
  closure_size : Option Nat
  references : List String
  signatures : List String
deriving DecidableEq

/-- The dependency graph (struct `StorePathGraph`). -/
structure StorePathGraph where
  paths : List StorePath
  roots : List String
deriving DecidableEq

/-- `StorePathGraph::get_path`: first node whose id equals `path`. -/
def StorePathGraph.get_path (g : StorePathGraph) (path : String) : Option StorePath :=
  g.paths.find? (fun p => decide (p.path = path))

/-- `StorePathGraph::get_references`: resolved direct dependencies, with
self-references filtered out. -/
def StorePathGraph.get_references (g : StorePathGraph) (path : String) : List StorePath :=
  match g.get_path path with
  | some store_path =>
    (store_path.references.filter (fun ref_path => decide (ref_path ≠ path))).filterMap
      (fun ref_path => g.get_path ref_path)
  | none => []

/-- `StorePathGraph::get_referrers`: all other nodes that reference `path`. -/
def StorePathGraph.get_referrers (g : StorePathGraph) (path : String) : List StorePath :=
  g.paths.filter (fun p => decide (p.path ≠ path) && decide (path ∈ p.references))

/-- Number of occurrences of display name `n` among the nodes (the
`name_counts` map of `disambiguate_names`). -/
def nameCount (g : StorePathGraph) (n : String) : Nat :=
  (g.paths.filter (fun p => decide (p.name = n))).length

/-- `StorePathGraph::disambiguate_names`: every node whose display name is
shared by more than one node gets `"<first 8 chars of hash>-<name>"`. -/
def StorePathGraph.disambiguate_names (g : StorePathGraph) : StorePathGraph :=
  { g with
    paths := g.paths.map (fun p =>
      if nameCount g p.name > 1 then
        { p with name := strTake p.hash 8 ++ "-" ++ p.name }
      else p) }

/-! ### src/path_stats.rs: stats and closures -/

/-- Derived per-node statistics (struct `PathStats`). -/
structure PathStats where
  closure_size : Nat
  added_size : Option Nat
  immediate_parents : List String
deriving DecidableEq

/-- HashMap lookup: the most recently inserted binding for `k` wins. -/
def statsGet (stats : List (String × PathStats)) (k : String) : Option PathStats :=
  (stats.reverse.find? (fun e => decide (e.1 = k))).map (fun e => e.2)

/-- The generic reachability worklist shared by `calculate_closure`
(path_stats.rs) and the two closure loops of
`calculate_added_size_for_path` (ui/widgets.rs):

  while let Some(current) = to_visit.pop() {
      [if blocked(current) { continue; }        -- filtered loop only]
      if closure.insert(current) {
          for reference in references(current) {
              if !closure.contains(reference) [&& !blocked(reference)] {
                  to_visit.push(reference); } } } }

The unfiltered loops instantiate `blocked` with the constantly-false
predicate, making the two bracketed guards no-ops. -/
def closureLoop (g : StorePathGraph) (blocked : String → Bool) :
    Nat → List String → List String → List String
  | 0, closure, _ => closure
  | _ + 1, closure, [] => closure
  | fuel + 1, closure, current :: to_visit =>
    if blocked current then closureLoop g blocked fuel closure to_visit
    else if current ∈ closure then closureLoop g blocked fuel closure to_visit
    else
      match g.get_path current with
      | some sp =>
        closureLoop g blocked fuel (current :: closure)
          ((sp.references.filter
            (fun r => !(decide (r ∈ current :: closure)) && !(blocked r))) ++ to_visit)
      | none => closureLoop g blocked fuel (current :: closure) to_visit

/-- Total reference-list length over all nodes. -/
def totalRefs (g : StorePathGraph) : Nat :=
  (g.paths.map (fun p => p.references.length)).sum

/-- Fuel that the characterization theorems prove sufficient for
`closureLoop` started on a single seed. -/
def closureFuel (g : StorePathGraph) : Nat :=
  (g.paths.length + totalRefs g + 1) * (totalRefs g + 1) + 1

/-- Sum of `nar_size` over the resolvable ids of a list
(`iter().filter_map(get_path).map(nar_size).sum()`). -/
def sumSizes (g : StorePathGraph) (l : List String) : Nat :=
  (l.filterMap (fun p => (g.get_path p).map (fun sp => sp.nar_size))).sum

/-- `calculate_closure`: memoized single-source reachable set.  Returns the
closure together with the updated cache. -/
def calculate_closure (g : StorePathGraph) (path : String)
    (cache : List (String × List String)) : List String × List (String × List String) :=
  match cache.find? (fun e => decide (e.1 = path)) with
  | some e => (e.2, cache)
  | none =>
    let closure := closureLoop g (fun _ => false) (closureFuel g) [] [path]
    (closure, (path, closure) :: cache)

/-- The `PathStats` record built for one node inside `calculate_stats`
(the per-node fresh `closure_cache` means the cache is always empty). -/
def mkPathStats (g : StorePathGraph) (p : StorePath) : PathStats :=
  let closure_size :=
    match p.closure_size with
    | some size => size
    | none => sumSizes g (calculate_closure g p.path []).1
  { closure_size := closure_size
    added_size := none
    immediate_parents := (g.get_referrers p.path).map (fun q => q.path) }

/-- `calculate_stats`: one `PathStats` entry per node. -/
def calculate_stats (g : StorePathGraph) : List (String × PathStats) :=
  g.paths.map (fun p => (p.path, mkPathStats g p))

/-- Sort order for the panes (enum `SortOrder`). -/
inductive SortOrder where
  | Alphabetical
  | ClosureSize
  | AddedSize
deriving DecidableEq

/-- `SortOrder::next`. -/
def SortOrder.next : SortOrder → SortOrder
  | .Alphabetical => .ClosureSize
  | .ClosureSize => .AddedSize
  | .AddedSize => .Alphabetical

/-- The `sort_by` comparator of `sort_paths`, as the "may come first"
relation (comparator result is not `Greater`). -/
def sortLe (stats : List (String × PathStats)) (order : SortOrder) (a b : String) : Bool :=
  match order with
  | .Alphabetical => strLe a.data b.data
  | .ClosureSize =>
    let size_a := (statsGet stats a).elim 0 (fun s => s.closure_size)
    let size_b := (statsGet stats b).elim 0 (fun s => s.closure_size)
    decide (size_b ≤ size_a)
  | .AddedSize =>
    let size_a := ((statsGet stats a).bind (fun s => s.added_size)).getD 0
    let size_b := ((statsGet stats b).bind (fun s => s.added_size)).getD 0
    decide (size_b ≤ size_a)

/-- Stable insertion into a sorted list: `x` is placed after every element
that may come before it. -/
def insertLe (le : String → String → Bool) (x : String) : List String → List String
  | [] => [x]
  | y :: ys => if le y x then y :: insertLe le x ys else x :: y :: ys

/-- `sort_paths`: Rust's stable `sort_by`.  Modelled by stable insertion
sort, which computes the same output as any stable sort for the total
preorders used here (string order, and descending numeric order). -/
def sort_paths (paths : List String) (stats : List (String × PathStats))
    (order : SortOrder) : List String :=
  paths.foldl (fun acc x => insertLe (sortLe stats order) x acc) []

/-! ### src/path_stats.rs: why_depends -/

mutual
/-- Trie-like path storage (struct `Treeish`).  Rust's `Vec<Treeish>`
children are modelled with the mutually inductive `TreeishList` so that
every recursion over trees stays structural (hence executable and
kernel-reducible). -/
inductive Treeish where
  | mk (node : String) (children : TreeishList)

/-- A list of `Treeish` subtrees. -/
inductive TreeishList where
  | nil
  | cons (head : Treeish) (tail : TreeishList)
end

/-- Root label of a tree. -/
def Treeish.node : Treeish → String
  | .mk n _ => n

/-- Emptiness test for a subtree list. -/
def TreeishList.isEmpty : TreeishList → Bool
  | .nil => true
  | .cons _ _ => false

/-- View a subtree list as a plain `List`. -/
def TreeishList.toList : TreeishList → List Treeish
  | .nil => []
  | .cons c rest => c :: rest.toList

/-- Build a subtree list from a plain `List`. -/
def TreeishList.ofList : List Treeish → TreeishList
  | [] => .nil
  | c :: rest => .cons c (TreeishList.ofList rest)

mutual
/-- `Treeish::to_paths`: all root-to-leaf label sequences; a leaf yields
the singleton path, otherwise the node label is prepended to every path
of every child, in child order. -/
def Treeish.toPaths : Treeish → List (List String)
  | .mk n cs =>
    if cs.isEmpty then [[n]]
    else (cs.childPaths).map (fun p => n :: p)

/-- Concatenation of `toPaths` over a subtree list. -/
def TreeishList.childPaths : TreeishList → List (List String)
  | .nil => []
  | .cons c rest => c.toPaths ++ rest.childPaths
end

mutual
/-- All labels occurring in a tree. -/
def Treeish.nodes : Treeish → List String
  | .mk n cs => n :: cs.nodesList

/-- All labels occurring in a subtree list. -/
def TreeishList.nodesList : TreeishList → List String
  | .nil => []
  | .cons c rest => c.nodes ++ rest.nodesList
end

/-- `build_treeish`: memoized bottom-up search for target-reaching
subtrees.  `cache` is threaded through (shared across roots), `visited` is
the on-stack set of the current DFS spine; the result is cached under
`node` on completion.  The `for reference in &store_path.references` loop
is the inner `foldl`, pushing successful child subtrees in order and
threading the cache.  The fuel bounds the recursion depth; the depth is
bounded by the number of distinct on-stack graph nodes, so
`whyDependsFuel` below never runs out. -/
def build_treeish (g : StorePathGraph) (target : String) :
    Nat → String → List (String × Option Treeish) → List String →
    Option Treeish × List (String × Option Treeish)
  | 0, _, cache, _ => (none, cache)
  | fuel + 1, node, cache, visited =>
    match cache.find? (fun e => decide (e.1 = node)) with
    | some e => (e.2, cache)
    | none =>
      if node ∈ visited then (none, cache)
      else
        let step :=
          if node = target then (some (Treeish.mk node TreeishList.nil), cache)
          else
            match g.get_path node with
            | some sp =>
              let bc := sp.references.foldl
                (fun acc reference =>
                  match build_treeish g target fuel reference acc.2 (node :: visited) with
                  | (some tree, c) => (acc.1 ++ [tree], c)
                  | (none, c) => (acc.1, c))
                (([] : List Treeish), cache)
              if bc.1.isEmpty then ((none : Option Treeish), bc.2)
              else (some (Treeish.mk node (TreeishList.ofList bc.1)), bc.2)
            | none => (none, cache)
        (step.1, (node, step.1) :: step.2)

/-- Depth bound for `build_treeish`: every nested call pushes a distinct
graph node onto `visited`. -/
def whyDependsFuel (g : StorePathGraph) : Nat := g.paths.length + 2

/-- `why_depends` before the final truncation: all discovered paths,
concatenated across roots in declaration order, with the memo cache shared
across roots and a fresh `visited` per root. -/
def why_depends_all (g : StorePathGraph) (target : String) : List (List String) :=
  match g.get_path target with
  | none => []
  | some _ =>
    (g.roots.foldl
      (fun acc root =>
        match build_treeish g target (whyDependsFuel g) root acc.2 [] with
        | (some tree, c) => (acc.1 ++ tree.toPaths, c)
        | (none, c) => (acc.1, c))
      (([] : List (List String)), ([] : List (String × Option Treeish)))).1

/-- `why_depends`: the discovered paths truncated to at most 1000. -/
def why_depends (g : StorePathGraph) (target : String) : List (List String) :=
  (why_depends_all g target).take 1000

/-! ### src/ui/widgets.rs: calculate_added_size_for_path -/

/-- The `context_closure` accumulation of `calculate_added_size_for_path`:
one shared visited set, one worklist pass per context root. -/
def context_closure_list (g : StorePathGraph) (context_roots : List String) : List String :=
  context_roots.foldl
    (fun closure root => closureLoop g (fun _ => false) (closureFuel g) closure [root]) []

/-- The `filtered_closure` accumulation of `calculate_added_size_for_path`:
roots equal to the target are skipped, and the worklist never enters,
counts, or expands the target. -/
def filtered_closure_list (g : StorePathGraph) (path : String)
    (context_roots : List String) : List String :=
  context_roots.foldl
    (fun closure root =>
      if root = path then closure
      else closureLoop g (fun r => decide (r = path)) (closureFuel g) closure [root]) []

/-- `calculate_added_size_for_path`: context closure total minus the total
of the closure recomputed with the target path never entered, never
counted and never expanded (`saturating_sub` is Nat subtraction). -/
def calculate_added_size_for_path (path : String) (g : StorePathGraph)
    (context_roots : List String) : Nat :=
  let context_total_size := sumSizes g (context_closure_list g context_roots)
  let filtered_size := sumSizes g (filtered_closure_list g path context_roots)
  context_total_size - filtered_size

/-! ### src/ui/app.rs: the navigation state machine -/

/-- The three panes (enum `Pane`). -/
inductive Pane where
  | Previous
  | Current
  | Next
deriving DecidableEq

/-- Key events relevant to `handle_key` (crossterm `KeyCode`). -/
inductive KeyCode where
  | char (c : Char)
  | esc
  | enter
  | backspace
  | up
  | down
  | left
  | right
  | pageUp
  | pageDown
  | other
deriving DecidableEq

/-- The why-depends overlay (enum `Modal`).  The two ratatui
`ScrollbarState` fields are renderer-internal display state and are not
modelled. -/
inductive Modal where
  | whyDepends (paths : List (List String)) (formatted_lines : List String)
      (max_line_width : Nat) (selected : Nat) (horizontal_scroll : Nat)
deriving DecidableEq

/-- The application state (struct `App`).  A ratatui `ListState` is
modelled by its selected index (its scroll offset is render-only). -/
structure App where
  graph : StorePathGraph
  stats : List (String × PathStats)
  sort_order : SortOrder
  active_pane : Pane
  show_help : Bool
  searching : Bool
  search_query : String
  previous_selected : Option Nat
  current_selected : Option Nat
  next_selected : Option Nat
  previous_items : List String
  current_items : List String
  next_items : List String
  current_path : Option String
  navigation_history : List (List String × Option Nat)
  modal : Option Modal
deriving DecidableEq

/-- `App::get_parent_context`.  The history stack keeps its most recent
entry at the head. -/
def App.get_parent_context (app : App) : List String :=
  match app.navigation_history.head? with
  | some entry =>
    match entry.2 with
    | some idx =>
      match entry.1.get? idx with
      | some parent => [parent]
      | none => entry.1
    | none => entry.1
  | none => app.graph.roots

/-- `App::update_panes`: refresh both side panes from the selected item of
`Current`; reset their selections and force focus back to `Current`. -/
def App.update_panes (app : App) : App :=
  let selected_idx := app.current_selected.getD 0
  match app.current_items.get? selected_idx with
  | none => app
  | some path =>
    let previous_items :=
      sort_paths ((statsGet app.stats path).elim [] (fun s => s.immediate_parents))
        app.stats app.sort_order
    let next_items :=
      sort_paths ((app.graph.get_references path).map (fun p => p.path))
        app.stats app.sort_order
    { app with
      current_path := some path
      previous_items := previous_items
      next_items := next_items
      previous_selected := if previous_items.isEmpty then none else some 0
      next_selected := if next_items.isEmpty then none else some 0
      active_pane := Pane.Current }

/-- `App::new`. -/
def App.new (graph : StorePathGraph) (stats : List (String × PathStats)) : App :=
  let app : App :=
    { graph := graph
      stats := stats
      sort_order := SortOrder.ClosureSize
      active_pane := Pane.Current
      show_help := false
      searching := false
      search_query := ""
      previous_selected := none
      current_selected := none
      next_selected := none
      previous_items := []
      current_items := []
      next_items := []
      current_path := none
      navigation_history := []
      modal := none }
  let app := { app with current_items := sort_paths graph.roots stats app.sort_order }
  if app.current_items.isEmpty then app
  else ({ app with current_selected := some 0 }).update_panes

/-- `App::move_down`. -/
def App.move_down (app : App) : App :=
  if app.current_items.isEmpty then app
  else
    let i :=
      match app.current_selected with
      | some i => min (i + 1) (app.current_items.length - 1)
      | none => 0
    ({ app with current_selected := some i }).update_panes

/-- `App::move_up`. -/
def App.move_up (app : App) : App :=
  match app.current_selected with
  | some i =>
    if i > 0 then ({ app with current_selected := some (i - 1) }).update_panes
    else app
  | none => app

/-- `App::move_left`: pop the navigation history. -/
def App.move_left (app : App) : App :=
  match app.navigation_history with
  | [] => app
  | entry :: rest =>
    ({ app with
      navigation_history := rest
      current_items := entry.1
      current_selected := entry.2 }).update_panes

/-- `App::move_right`: descend into the dependencies pane. -/
def App.move_right (app : App) : App :=
  if app.next_items.isEmpty then app
  else
    ({ app with
      navigation_history := (app.current_items, app.current_selected) :: app.navigation_history
      current_items := app.next_items
      current_selected := some 0 }).update_panes

/-- `App::select_item`. -/
def App.select_item (app : App) : App := app.update_panes

/-- `App::resort_current_pane`. -/
def App.resort_current_pane (app : App) : App :=
  { app with
    current_items := sort_paths app.current_items app.stats app.sort_order
    previous_items := sort_paths app.previous_items app.stats app.sort_order
    next_items := sort_paths app.next_items app.stats app.sort_order }

/-- `App::perform_search`. -/
def App.perform_search (app : App) : App :=
  if app.search_query.data.isEmpty then app
  else
    let query := lowerStr app.search_query
    let matching_paths :=
      (app.graph.paths.filter (fun p => containsSub (lowerStr p.name) query)).map
        (fun p => p.path)
    if matching_paths.isEmpty then app
    else
      ({ app with
        current_items := sort_paths matching_paths app.stats app.sort_order
        current_selected := some 0
        active_pane := Pane.Current }).update_panes

/-- Short display name extracted from an id
(`p.split('-').skip(1).collect::<Vec<_>>().join("-")`). -/
def shortNameOfId (id : String) : String :=
  match id.splitOn "-" with
  | [] => ""
  | _ :: rest => String.intercalate "-" rest

/-- `App::show_why_depends`. -/
def App.show_why_depends (app : App) : App :=
  match app.current_path with
  | none => app
  | some path =>
    let pathsList := why_depends app.graph path
    if pathsList.isEmpty then app
    else
      let formatted_lines :=
        pathsList.map (fun p => String.intercalate " → " (p.map shortNameOfId))
      let max_line_width := (formatted_lines.map (fun t => t.data.length)).foldl max 0
      { app with
        modal := some (Modal.whyDepends pathsList formatted_lines max_line_width 0 0) }

/-- The replay loop of `App::select_path_from_why_depends`. -/
def App.replay_path : App → List String → App
  | app, [] => app
  | app, target :: rest =>
    let stepped :=
      match app.current_items.findIdx? (fun p => decide (p = target)) with
      | some idx =>
        let a := ({ app with current_selected := some idx }).update_panes
        if rest.isEmpty then a else a.move_right
      | none => app
    stepped.replay_path rest

/-- `App::select_path_from_why_depends`: clear history, reset `Current` to
the sorted roots, then replay the chosen path. -/
def App.select_path_from_why_depends (app : App) (path : List String) : App :=
  let app := { app with navigation_history := [] }
  let app := { app with current_items := sort_paths app.graph.roots app.stats app.sort_order }
  app.replay_path path

/-- `App::handle_key`: the full key dispatch.  Returns the new state and
the quit flag (`Ok(true)` means quit). -/
def App.handle_key (app : App) (key : KeyCode) : App × Bool :=
  match app.modal with
  | some (Modal.whyDepends pathsList formatted_lines max_line_width selected horizontal_scroll) =>
    match key with
    | .char 'q' | .esc => ({ app with modal := none }, false)
    | .down | .char 'j' =>
      let selected' :=
        if selected < formatted_lines.length - 1 then selected + 1 else selected
      ({ app with modal := some (Modal.whyDepends pathsList formatted_lines
          max_line_width selected' horizontal_scroll) }, false)
    | .up | .char 'k' =>
      let selected' := if selected > 0 then selected - 1 else selected
      ({ app with modal := some (Modal.whyDepends pathsList formatted_lines
          max_line_width selected' horizontal_scroll) }, false)
    | .enter =>
      match pathsList.get? selected with
      | some p => (({ app with modal := none }).select_path_from_why_depends p, false)
      | none => (app, false)
    | .left | .char 'h' =>
      ({ app with modal := some (Modal.whyDepends pathsList formatted_lines
          max_line_width selected (horizontal_scroll - 5)) }, false)
    | .right | .char 'l' =>
      let max_scroll := max_line_width - 20
      ({ app with modal := some (Modal.whyDepends pathsList formatted_lines
          max_line_width selected (min (horizontal_scroll + 5) max_scroll)) }, false)
    | .pageDown =>
      let selected' := min (selected + 10) (formatted_lines.length - 1)
      ({ app with modal := some (Modal.whyDepends pathsList formatted_lines
          max_line_width selected' horizontal_scroll) }, false)
    | .pageUp =>
      ({ app with modal := some (Modal.whyDepends pathsList formatted_lines
          max_line_width (selected - 10) horizontal_scroll) }, false)
    | _ => (app, false)
  | none =>
    if app.searching then
      match key with
      | .esc => ({ app with searching := false, search_query := "" }, false)
      | .enter => (({ app with searching := false }).perform_search, false)
      | .backspace => ({ app with search_query := strPop app.search_query }, false)
      | .char c => ({ app with search_query := app.search_query.push c }, false)
      | _ => (app, false)
    else
      match key with
      | .char 'q' | .esc => (app, true)
      | .char '?' => ({ app with show_help := !app.show_help }, false)
      | .char '/' => ({ app with searching := true, search_query := "" }, false)
      | .char 'w' => (app.show_why_depends, false)
      | .char 's' =>
        ({ app with sort_order := app.sort_order.next }).resort_current_pane |>
          (fun a => (a, false))
      | .down | .char 'j' => (app.move_down, false)
      | .up | .char 'k' => (app.move_up, false)
      | .left | .char 'h' => (app.move_left, false)
      | .right | .char 'l' => (app.move_right, false)
      | .enter => (app.select_item, false)
      | _ => (app, false)

/-- The added-size figure computed by `render_status_bar`
(src/ui/widgets.rs lines 80–94) for a displayed path: a stored
`added_size` is reused, otherwise the value is recomputed from the parent
context.  The renderer holds `&App`, so nothing is written back. -/
def status_bar_added_size (app : App) (path : String) : Nat :=
  match statsGet app.stats path with
  | some s =>
    match s.added_size with
    | some size => size
    | none => calculate_added_size_for_path path app.graph app.get_parent_context
  | none => 0

/-- The horizontal scroll offset of the open modal, if any. -/
def modalScroll (app : App) : Option Nat :=
  app.modal.map (fun m => match m with | .whyDepends _ _ _ _ hs => hs)

/-! ### Specification-side reachability notions -/

/-- Raw outgoing references of an id (empty for ids absent from the
store). -/
def refsOf (g : StorePathGraph) (id : String) : List String :=
  (g.get_path id).elim [] (fun sp => sp.references)

/-- One dependency edge, following raw `references`. -/
def rawEdge (g : StorePathGraph) (a b : String) : Prop := b ∈ refsOf g a

instance (g : StorePathGraph) (a b : String) : Decidable (rawEdge g a b) :=
  inferInstanceAs (Decidable (b ∈ refsOf g a))

/-- One dependency edge whose endpoint is not blocked. -/
def edgeB (g : StorePathGraph) (blocked : String → Bool) (a b : String) : Prop :=
  rawEdge g a b ∧ blocked b = false

/-- Reachability along unblocked edges from an unblocked seed. -/
def ReachB (g : StorePathGraph) (blocked : String → Bool) (s z : String) : Prop :=
  blocked s = false ∧ Relation.ReflTransGen (edgeB g blocked) s z

/-- The never-blocking predicate (plain reachability). -/
def noBlock : String → Bool := fun _ => false

/-- Own size of an id, zero when absent from the store. -/
def own_size (g : StorePathGraph) (id : String) : Nat :=
  (g.get_path id).elim 0 (fun sp => sp.nar_size)

/-- Chain check: consecutive elements are joined by raw reference
edges. -/
def chainB (g : StorePathGraph) : List String → Bool
  | [] => true
  | [_] => true
  | a :: b :: rest => decide (rawEdge g a b) && chainB g (b :: rest)

/-- A simple root-to-target dependency path: starts at a declared root,
ends at the target, repeats no id, and follows `references` edges. -/
def RootPathTo (g : StorePathGraph) (target : String) (p : List String) : Prop :=
  (∃ r ∈ g.roots, p.head? = some r) ∧ p.getLast? = some target ∧ p.Nodup ∧
    chainB g p = true

instance (g : StorePathGraph) (target : String) (p : List String) :
    Decidable (RootPathTo g target p) :=
  inferInstanceAs (Decidable ((∃ r ∈ g.roots, p.head? = some r) ∧
    p.getLast? = some target ∧ p.Nodup ∧ chainB g p = true))

/-- Closedness of a visited set modulo a pending worklist: every unblocked
edge out of the set lands back in the set or in the worklist. -/
def ClosedB (g : StorePathGraph) (blocked : String → Bool)
    (closure toVisit : List String) : Prop :=
  ∀ x ∈ closure, ∀ y, edgeB g blocked x y → y ∈ closure ∨ y ∈ toVisit

/-- Worklist-termination weight of one id. -/
def refWeight (g : StorePathGraph) (id : String) : Nat := 1 + (refsOf g id).length

/-- Worklist-termination potential of a set of not-yet-inserted ids. -/
def Wpot (g : StorePathGraph) (S : Finset String) : Nat := ∑ id ∈ S, refWeight g id

/-- Every id mentioned by the graph (node ids and reference targets). -/
def idUniverse (g : StorePathGraph) : Finset String :=
  (g.paths.map (fun p => p.path) ++ g.paths.flatMap (fun p => p.references)).toFinset

/-! ### Invariants of the why-depends memoization -/

/-- The id has a successful (`some`) entry in the memo cache. -/
def CachedSome (cache : List (String × Option Treeish)) (x : String) : Prop :=
  ∃ t, (x, some t) ∈ cache

/-- Every path of the tree is a target-terminated, duplicate-free
reference chain starting at the tree's root label. -/
def TreeSound (g : StorePathGraph) (target : String) (t : Treeish) : Prop :=
  ∀ p ∈ t.toPaths, p.head? = some t.node ∧ p.getLast? = some target ∧
    p.Nodup ∧ chainB g p = true

/-- Every successful cache entry holds a sound tree rooted at its key
whose labels are all themselves successfully cached. -/
def CacheOk (g : StorePathGraph) (target : String)
    (cache : List (String × Option Treeish)) : Prop :=
  ∀ e ∈ cache, ∀ t, e.2 = some t → t.node = e.1 ∧ TreeSound g target t ∧
    ∀ x ∈ t.nodes, CachedSome cache x

/-- No on-stack id has a cache entry (a node is cached only after its
frame completes and is popped). -/
def VisitedFresh (cache : List (String × Option Treeish))
    (visited : List String) : Prop :=
  ∀ v ∈ visited, ∀ r, (v, r) ∉ cache

/-- Postcondition of one `build_treeish` call: the cache only grows, new
keys are neither on-stack nor previously cached, the cache invariants are
preserved, and a successful result is a sound tree rooted at the queried
node with all its labels cached. -/
def BuildPost (g : StorePathGraph) (target : String) (fuel : Nat) (node : String)
    (cache : List (String × Option Treeish)) (visited : List String) : Prop :=
  (∀ e ∈ cache, e ∈ (build_treeish g target fuel node cache visited).2) ∧
  (∀ e ∈ (build_treeish g target fuel node cache visited).2,
    e ∈ cache ∨ (e.1 ∉ visited ∧ ∀ r2, (e.1, r2) ∉ cache)) ∧
  CacheOk g target (build_treeish g target fuel node cache visited).2 ∧
  VisitedFresh (build_treeish g target fuel node cache visited).2 visited ∧
  (∀ t, (build_treeish g target fuel node cache visited).1 = some t →
    t.node = node ∧ TreeSound g target t ∧
    ∀ x ∈ t.nodes, CachedSome (build_treeish g target fuel node cache visited).2 x)

/-! ### Concrete fixtures used by witnesses and counterexamples -/

/-- A store path literal for test graphs. -/
def fixPath (id : String) (sz : Nat) (refs : List String) : StorePath :=
  { path := id, hash := "", name := id, nar_size := sz, closure_size := none,
    references := refs, signatures := [] }

/-- Chain-with-sharing graph: `r` depends on `a` and `b`. -/
def gWit : StorePathGraph :=
  { paths := [fixPath "r" 100 ["a", "b"], fixPath "a" 10 [], fixPath "b" 1 []]
    roots := ["r"] }

/-- Cyclic graph with a self-reference and a dangling reference. -/
def gCyc : StorePathGraph :=
  { paths := [fixPath "a" 1 ["b"], fixPath "b" 2 ["a", "c", "d0"], fixPath "c" 4 ["c"]]
    roots := ["a"] }

/-- Cyclic graph on which the shared why-depends memo cache drops the
simple path R-X-Y-T: exploring Y first caches `X ↦ none` while Y is on
stack, and the cached entry is reused when X is reached from R. -/
def gMiss : StorePathGraph :=
  { paths := [fixPath "R" 1 ["Y", "X"], fixPath "Y" 1 ["X", "T"], fixPath "X" 1 ["Y"],
              fixPath "T" 1 []]
    roots := ["R"] }

/-- First of two nodes sharing the display name `foo`. -/
def dupA : StorePath :=
  { path := "aaaabbbbccccddddeeeeffffgggghhhh-foo"
    hash := "aaaabbbbccccddddeeeeffffgggghhhh"
    name := "foo", nar_size := 0, closure_size := none
    references := [], signatures := [] }

/-- Second of two nodes sharing the display name `foo`. -/
def dupB : StorePath :=
  { path := "11112222333344445555666677778888-foo"
    hash := "11112222333344445555666677778888"
    name := "foo", nar_size := 0, closure_size := none
    references := [], signatures := [] }

/-- A node with the unique display name `bar`. -/
def dupC : StorePath :=
  { path := "zzzzyyyyxxxxwwwwvvvvuuuuttttssss-bar"
    hash := "zzzzyyyyxxxxwwwwvvvvuuuuttttssss"
    name := "bar", nar_size := 0, closure_size := none
    references := [], signatures := [] }

/-- Two nodes sharing the display name `foo`, one unique `bar`. -/
def gDup : StorePathGraph := { paths := [dupA, dupB, dupC], roots := [] }

/-- The app state after startup on `gWit`. -/
def appWit : App := App.new gWit (calculate_stats gWit)

/-- The app state after pressing `/`: search mode with an empty query. -/
def appSearching : App := (appWit.handle_key (KeyCode.char '/')).1

/-- The app state with a why-depends modal open, scrolled to the left
edge, with a longest line of width 40. -/
def appModal : App :=
  { appWit with modal := some (Modal.whyDepends [["r"]] ["r"] 40 0 0) }

/-- Search mode with the one-character query `a`. -/
def appSearchA : App := (appSearching.handle_key (KeyCode.char 'a')).1

/-! ## Worklist characterization

The theorems below show that `closureLoop` computes, as a set, exactly the
ids reachable from its worklist seeds along unblocked `references` edges,
and that `closureFuel` is always sufficient fuel. -/

theorem refsOf_eq_of_get_path {g : StorePathGraph} {a : String} {sp : StorePath}
    (h : g.get_path a = some sp) : refsOf g a = sp.references := by
  simp [refsOf, h]

theorem refsOf_eq_nil_of_get_path_none {g : StorePathGraph} {a : String}
    (h : g.get_path a = none) : refsOf g a = [] := by
  simp [refsOf, h]

theorem reach_escape {g : StorePathGraph} {blocked : String → Bool}
    {closure T : List String} (hcl : ClosedB g blocked closure T)
    {x z : String} (hreach : Relation.ReflTransGen (edgeB g blocked) x z) :
    x ∈ closure →
      z ∈ closure ∨ ∃ t ∈ T, t ∉ closure ∧ blocked t = false ∧
        Relation.ReflTransGen (edgeB g blocked) t z := by
  induction hreach using Relation.ReflTransGen.head_induction_on with
  | refl => exact fun hz => Or.inl hz
  | @head a c hac hcz ih =>
    intro ha
    rcases hcl a ha c hac with hc | hc
    · exact ih hc
    · by_cases hcc : c ∈ closure
      · exact ih hcc
      · exact Or.inr ⟨c, hc, hcc, hac.2, hcz⟩

theorem closureLoop_mem_iff (g : StorePathGraph) (blocked : String → Bool)
    (U : Finset String) (hU : ∀ a b, rawEdge g a b → b ∈ U) :
    ∀ (fuel : Nat) (closure toVisit : List String),
      (∀ x ∈ toVisit, x ∈ U) →
      toVisit.length + Wpot g (U \ closure.toFinset) ≤ fuel →
      ClosedB g blocked closure toVisit →
      ∀ z, z ∈ closureLoop g blocked fuel closure toVisit ↔
        z ∈ closure ∨ ∃ s ∈ toVisit, blocked s = false ∧
          Relation.ReflTransGen (edgeB g blocked) s z := by
  intro fuel
  induction fuel with
  | zero =>
    intro closure toVisit htv hfuel hcl z
    have h0 : toVisit = [] := List.eq_nil_of_length_eq_zero (by omega)
    subst h0
    simp [closureLoop]
  | succ fuel ih =>
    intro closure toVisit htv hfuel hcl z
    cases toVisit with
    | nil => simp [closureLoop]
    | cons current rest =>
      have hcurU : current ∈ U := htv current (List.mem_cons_self _ _)
      have htvr : ∀ x ∈ rest, x ∈ U := fun x hx => htv x (List.mem_cons_of_mem _ hx)
      by_cases hb : blocked current = true
      · -- the filtered loop skips a blocked item
        have hstep : closureLoop g blocked (fuel + 1) closure (current :: rest) =
            closureLoop g blocked fuel closure rest := by
          simp [closureLoop, hb]
        have hcl' : ClosedB g blocked closure rest := by
          intro x hx y hy
          rcases hcl x hx y hy with h | h
          · exact Or.inl h
          · rcases List.mem_cons.mp h with h | h
            · exact absurd hy.2 (by simp [h, hb])
            · exact Or.inr h
        rw [hstep, ih closure rest htvr (by simp at hfuel; omega) hcl']
        constructor
        · rintro (h | ⟨s, hs, hbs, hr⟩)
          · exact Or.inl h
          · exact Or.inr ⟨s, List.mem_cons_of_mem _ hs, hbs, hr⟩
        · rintro (h | ⟨s, hs, hbs, hr⟩)
          · exact Or.inl h
          · rcases List.mem_cons.mp hs with h | h
            · exact absurd hbs (by simp [h, hb])
            · exact Or.inr ⟨s, h, hbs, hr⟩
      · have hbf : blocked current = false := by
          revert hb; cases blocked current <;> simp
        by_cases hmem : current ∈ closure
        · -- already visited
          have hstep : closureLoop g blocked (fuel + 1) closure (current :: rest) =
              closureLoop g blocked fuel closure rest := by
            simp [closureLoop, hb, hmem]
          have hcl' : ClosedB g blocked closure rest := by
            intro x hx y hy
            rcases hcl x hx y hy with h | h
            · exact Or.inl h
            · rcases List.mem_cons.mp h with h | h
              · exact Or.inl (h ▸ hmem)
              · exact Or.inr h
          rw [hstep, ih closure rest htvr (by simp at hfuel; omega) hcl']
          constructor
          · rintro (h | ⟨s, hs, hbs, hr⟩)
            · exact Or.inl h
            · exact Or.inr ⟨s, List.mem_cons_of_mem _ hs, hbs, hr⟩
          · rintro (h | ⟨s, hs, hbs, hr⟩)
            · exact Or.inl h
            · rcases List.mem_cons.mp hs with h | h
              · subst h
                rcases reach_escape hcl' hr hmem with h | ⟨t, ht, htc, htb, htr⟩
                · exact Or.inl h
                · exact Or.inr ⟨t, ht, htb, htr⟩
              · exact Or.inr ⟨s, h, hbs, hr⟩
        · -- fresh id: insert it and push its unseen references
          have hcur_in : current ∈ U \ closure.toFinset :=
            Finset.mem_sdiff.mpr ⟨hcurU, by simpa [List.mem_toFinset] using hmem⟩
          have herase : U \ (current :: closure).toFinset =
              (U \ closure.toFinset).erase current := by
            ext a
            simp only [Finset.mem_sdiff, Finset.mem_erase, List.mem_toFinset,
              List.mem_cons, List.toFinset_cons, Finset.mem_insert]
            tauto
          have hWsplit : Wpot g ((U \ closure.toFinset).erase current) +
              refWeight g current = Wpot g (U \ closure.toFinset) :=
            Finset.sum_erase_add _ _ hcur_in
          cases hg : g.get_path current with
          | some sp =>
            have hrefs : refsOf g current = sp.references := refsOf_eq_of_get_path hg
            have hw : refWeight g current = 1 + sp.references.length := by
              simp [refWeight, hrefs]
            set filtered := sp.references.filter
              (fun r => !(decide (r ∈ current :: closure)) && !(blocked r)) with hfiltered
            have hstep : closureLoop g blocked (fuel + 1) closure (current :: rest) =
                closureLoop g blocked fuel (current :: closure) (filtered ++ rest) := by
              simp [closureLoop, hb, hmem, hg, hfiltered]
            have hmemfil : ∀ x ∈ filtered,
                x ∈ sp.references ∧ x ∉ current :: closure ∧ blocked x = false := by
              intro x hx
              have h := List.mem_filter.mp hx
              refine ⟨h.1, ?_, ?_⟩
              · have := h.2
                simp only [Bool.and_eq_true, Bool.not_eq_true'] at this
                simpa using this.1
              · have := h.2
                simp only [Bool.and_eq_true, Bool.not_eq_true'] at this
                exact this.2
            have htv' : ∀ x ∈ filtered ++ rest, x ∈ U := by
              intro x hx
              rcases List.mem_append.mp hx with h | h
              · exact hU current x (by rw [rawEdge, hrefs]; exact (hmemfil x h).1)
              · exact htvr x h
            have hfuel' : (filtered ++ rest).length +
                Wpot g (U \ (current :: closure).toFinset) ≤ fuel := by
              have hlf : filtered.length ≤ sp.references.length :=
                List.length_filter_le _ _
              have hla : (filtered ++ rest).length = filtered.length + rest.length :=
                List.length_append _ _
              have hlc : (current :: rest).length = rest.length + 1 := by simp
              rw [herase]
              omega
            have hcl' : ClosedB g blocked (current :: closure) (filtered ++ rest) := by
              intro x hx y hy
              rcases List.mem_cons.mp hx with h | h
              · subst h
                by_cases hyc : y ∈ x :: closure
                · exact Or.inl hyc
                · refine Or.inr (List.mem_append.mpr (Or.inl ?_))
                  refine List.mem_filter.mpr ⟨?_, ?_⟩
                  · have := hy.1
                    rwa [rawEdge, hrefs] at this
                  · simp [hyc, hy.2]
              · rcases hcl x h y hy with h2 | h2
                · exact Or.inl (List.mem_cons_of_mem _ h2)
                · rcases List.mem_cons.mp h2 with h3 | h3
                  · exact Or.inl (h3 ▸ List.mem_cons_self _ _)
                  · exact Or.inr (List.mem_append.mpr (Or.inr h3))
            rw [hstep, ih (current :: closure) (filtered ++ rest) htv' hfuel' hcl']
            constructor
            · rintro (h | ⟨s, hs, hbs, hr⟩)
              · rcases List.mem_cons.mp h with h | h
                · exact Or.inr ⟨current, List.mem_cons_self _ _, hbf,
                    h ▸ Relation.ReflTransGen.refl⟩
                · exact Or.inl h
              · rcases List.mem_append.mp hs with h | h
                · rcases hmemfil s h with ⟨h1, _, h3⟩
                  refine Or.inr ⟨current, List.mem_cons_self _ _, hbf, ?_⟩
                  exact Relation.ReflTransGen.head ⟨by rw [rawEdge, hrefs]; exact h1, h3⟩ hr
                · exact Or.inr ⟨s, List.mem_cons_of_mem _ h, hbs, hr⟩
            · rintro (h | ⟨s, hs, hbs, hr⟩)
              · exact Or.inl (List.mem_cons_of_mem _ h)
              · rcases List.mem_cons.mp hs with h | h
                · subst h
                  rcases Relation.ReflTransGen.cases_head hr with h | ⟨c, hc, hcr⟩
                  · exact Or.inl (h ▸ List.mem_cons_self _ _)
                  · by_cases hcc : c ∈ s :: closure
                    · rcases reach_escape hcl' hcr hcc with h2 | ⟨t, ht, _, htb, htr⟩
                      · exact Or.inl h2
                      · exact Or.inr ⟨t, ht, htb, htr⟩
                    · refine Or.inr ⟨c, List.mem_append.mpr (Or.inl ?_), hc.2, hcr⟩
                      refine List.mem_filter.mpr ⟨?_, ?_⟩
                      · have := hc.1
                        rwa [rawEdge, hrefs] at this
                      · simp [hcc, hc.2]
                · exact Or.inr ⟨s, List.mem_append.mpr (Or.inr h), hbs, hr⟩
          | none =>
            have hrefs : refsOf g current = [] := refsOf_eq_nil_of_get_path_none hg
            have hw : refWeight g current = 1 := by simp [refWeight, hrefs]
            have hstep : closureLoop g blocked (fuel + 1) closure (current :: rest) =
                closureLoop g blocked fuel (current :: closure) rest := by
              simp [closureLoop, hb, hmem, hg]
            have hfuel' : rest.length + Wpot g (U \ (current :: closure).toFinset) ≤ fuel := by
              have hlc : (current :: rest).length = rest.length + 1 := by simp
              rw [herase]
              omega
            have hnoedge : ∀ y, ¬ edgeB g blocked current y := by
              intro y hy
              have := hy.1
              rw [rawEdge, hrefs] at this
              simp at this
            have hcl' : ClosedB g blocked (current :: closure) rest := by
              intro x hx y hy
              rcases List.mem_cons.mp hx with h | h
              · exact absurd hy (h ▸ hnoedge y)
              · rcases hcl x h y hy with h2 | h2
                · exact Or.inl (List.mem_cons_of_mem _ h2)
                · rcases List.mem_cons.mp h2 with h3 | h3
                  · exact Or.inl (h3 ▸ List.mem_cons_self _ _)
                  · exact Or.inr h3
            rw [hstep, ih (current :: closure) rest htvr hfuel' hcl']
            constructor
            · rintro (h | ⟨s, hs, hbs, hr⟩)
              · rcases List.mem_cons.mp h with h | h
                · exact Or.inr ⟨current, List.mem_cons_self _ _, hbf,
                    h ▸ Relation.ReflTransGen.refl⟩
                · exact Or.inl h
              · exact Or.inr ⟨s, List.mem_cons_of_mem _ hs, hbs, hr⟩
            · rintro (h | ⟨s, hs, hbs, hr⟩)
              · exact Or.inl (List.mem_cons_of_mem _ h)
              · rcases List.mem_cons.mp hs with h | h
                · subst h
                  rcases Relation.ReflTransGen.cases_head hr with h | ⟨c, hc, _⟩
                  · exact Or.inl (h ▸ List.mem_cons_self _ _)
                  · exact absurd hc (hnoedge c)
                · exact Or.inr ⟨s, h, hbs, hr⟩

theorem closureLoop_nodup (g : StorePathGraph) (blocked : String → Bool) :
    ∀ (fuel : Nat) (closure toVisit : List String), closure.Nodup →
      (closureLoop g blocked fuel closure toVisit).Nodup := by
  intro fuel
  induction fuel with
  | zero => intro closure toVisit hn; simpa [closureLoop] using hn
  | succ fuel ih =>
    intro closure toVisit hn
    cases toVisit with
    | nil => simpa [closureLoop] using hn
    | cons current rest =>
      by_cases hb : blocked current = true
      · rw [show closureLoop g blocked (fuel + 1) closure (current :: rest) =
            closureLoop g blocked fuel closure rest from by simp [closureLoop, hb]]
        exact ih _ _ hn
      · by_cases hmem : current ∈ closure
        · rw [show closureLoop g blocked (fuel + 1) closure (current :: rest) =
              closureLoop g blocked fuel closure rest from by simp [closureLoop, hb, hmem]]
          exact ih _ _ hn
        · cases hg : g.get_path current with
          | some sp =>
            rw [show closureLoop g blocked (fuel + 1) closure (current :: rest) =
                closureLoop g blocked fuel (current :: closure)
                  ((sp.references.filter
                    (fun r => !(decide (r ∈ current :: closure)) && !(blocked r))) ++ rest)
              from by simp [closureLoop, hb, hmem, hg]]
            exact ih _ _ (List.nodup_cons.mpr ⟨hmem, hn⟩)
          | none =>
            rw [show closureLoop g blocked (fuel + 1) closure (current :: rest) =
                closureLoop g blocked fuel (current :: closure) rest
              from by simp [closureLoop, hb, hmem, hg]]
            exact ih _ _ (List.nodup_cons.mpr ⟨hmem, hn⟩)

theorem refWeight_le (g : StorePathGraph) (id : String) :
    refWeight g id ≤ 1 + totalRefs g := by
  unfold refWeight totalRefs refsOf
  cases hg : g.get_path id with
  | none => simp
  | some sp =>
    have hsp : sp ∈ g.paths := List.mem_of_find?_eq_some hg
    have hmem : sp.references.length ∈ g.paths.map (fun p => p.references.length) :=
      List.mem_map.mpr ⟨sp, hsp, rfl⟩
    have := List.single_le_sum (l := g.paths.map (fun p => p.references.length))
      (fun x _ => Nat.zero_le x) _ hmem
    simpa using Nat.add_le_add_left this 1

theorem rawEdge_target_mem_idUniverse {g : StorePathGraph} {a b : String}
    (h : rawEdge g a b) : b ∈ idUniverse g := by
  rw [rawEdge, refsOf] at h
  cases hg : g.get_path a with
  | none => rw [hg] at h; simp at h
  | some sp =>
    rw [hg] at h
    simp only [Option.elim] at h
    have hsp : sp ∈ g.paths := List.mem_of_find?_eq_some hg
    unfold idUniverse
    rw [List.mem_toFinset, List.mem_append]
    exact Or.inr (List.mem_flatMap.mpr ⟨sp, hsp, h⟩)

theorem idUniverse_card_le (g : StorePathGraph) :
    (idUniverse g).card ≤ g.paths.length + totalRefs g := by
  unfold idUniverse
  refine le_trans (List.toFinset_card_le _) ?_
  rw [List.length_append, List.length_map, List.length_flatMap]
  have h : (List.map (List.length ∘ fun p => p.references) g.paths).sum = totalRefs g := by
    simp [totalRefs, Function.comp_def]
  omega

theorem closureFuel_sufficient (g : StorePathGraph) (root : String)
    (closure : List String) :
    ([root] : List String).length +
      Wpot g ((idUniverse g ∪ {root}) \ closure.toFinset) ≤ closureFuel g := by
  have hcard : ((idUniverse g ∪ {root}) \ closure.toFinset).card ≤
      g.paths.length + totalRefs g + 1 := by
    refine le_trans (Finset.card_le_card (Finset.sdiff_subset)) ?_
    refine le_trans (Finset.card_union_le _ _) ?_
    have := idUniverse_card_le g
    simp only [Finset.card_singleton]
    omega
  have hW : Wpot g ((idUniverse g ∪ {root}) \ closure.toFinset) ≤
      ((idUniverse g ∪ {root}) \ closure.toFinset).card * (1 + totalRefs g) := by
    have := Finset.sum_le_card_nsmul ((idUniverse g ∪ {root}) \ closure.toFinset)
      (refWeight g) (1 + totalRefs g) (fun x _ => refWeight_le g x)
    simpa [Wpot, smul_eq_mul] using this
  have hmul : ((idUniverse g ∪ {root}) \ closure.toFinset).card * (1 + totalRefs g) ≤
      (g.paths.length + totalRefs g + 1) * (1 + totalRefs g) :=
    Nat.mul_le_mul_right _ hcard
  have : closureFuel g = (g.paths.length + totalRefs g + 1) * (totalRefs g + 1) + 1 := rfl
  rw [this]
  have harr : (g.paths.length + totalRefs g + 1) * (1 + totalRefs g) =
      (g.paths.length + totalRefs g + 1) * (totalRefs g + 1) := by ring
  simp only [List.length_singleton]
  omega

theorem fold_closureLoop_mem (g : StorePathGraph) (blocked : String → Bool) :
    ∀ (roots : List String) (acc : List String),
      ClosedB g blocked acc [] →
      (∀ z, z ∈ roots.foldl (fun closure root =>
            closureLoop g blocked (closureFuel g) closure [root]) acc ↔
          z ∈ acc ∨ ∃ r ∈ roots, blocked r = false ∧
            Relation.ReflTransGen (edgeB g blocked) r z) ∧
      ClosedB g blocked (roots.foldl (fun closure root =>
          closureLoop g blocked (closureFuel g) closure [root]) acc) [] := by
  intro roots
  induction roots with
  | nil =>
    intro acc hacc
    constructor
    · intro z; simp
    · simpa using hacc
  | cons r rs ih =>
    intro acc hacc
    have hU : ∀ a b, rawEdge g a b → b ∈ idUniverse g ∪ {r} :=
      fun a b h => Finset.mem_union.mpr (Or.inl (rawEdge_target_mem_idUniverse h))
    have htv : ∀ x ∈ ([r] : List String), x ∈ idUniverse g ∪ {r} := by
      intro x hx
      rcases List.mem_singleton.mp hx with rfl
      exact Finset.mem_union.mpr (Or.inr (Finset.mem_singleton_self _))
    have hcl : ClosedB g blocked acc [r] := by
      intro x hx y hy
      rcases hacc x hx y hy with h | h
      · exact Or.inl h
      · exact absurd h (List.not_mem_nil _)
    have hstep := closureLoop_mem_iff g blocked (idUniverse g ∪ {r}) hU
      (closureFuel g) acc [r] htv (closureFuel_sufficient g r acc) hcl
    have hstep' : ∀ z, z ∈ closureLoop g blocked (closureFuel g) acc [r] ↔
        z ∈ acc ∨ (blocked r = false ∧
          Relation.ReflTransGen (edgeB g blocked) r z) := by
      intro z
      rw [hstep z]
      constructor
      · rintro (h | ⟨s, hs, hbs, hr⟩)
        · exact Or.inl h
        · rcases List.mem_singleton.mp hs with rfl
          exact Or.inr ⟨hbs, hr⟩
      · rintro (h | ⟨hbs, hr⟩)
        · exact Or.inl h
        · exact Or.inr ⟨r, List.mem_singleton_self _, hbs, hr⟩
    have hclosed_step : ClosedB g blocked
        (closureLoop g blocked (closureFuel g) acc [r]) [] := by
      intro x hx y hy
      refine Or.inl ?_
      rcases (hstep' x).mp hx with h | ⟨hbr, hrx⟩
      · rcases hacc x h y hy with h2 | h2
        · exact (hstep' y).mpr (Or.inl h2)
        · exact absurd h2 (List.not_mem_nil _)
      · exact (hstep' y).mpr (Or.inr ⟨hbr, hrx.tail hy⟩)
    obtain ⟨hmem, hclosed⟩ := ih (closureLoop g blocked (closureFuel g) acc [r]) hclosed_step
    refine ⟨?_, by simpa using hclosed⟩
    intro z
    rw [List.foldl_cons, hmem z, hstep' z]
    constructor
    · rintro ((h | ⟨hbr, hr⟩) | ⟨s, hs, hbs, hr⟩)
      · exact Or.inl h
      · exact Or.inr ⟨r, List.mem_cons_self _ _, hbr, hr⟩
      · exact Or.inr ⟨s, List.mem_cons_of_mem _ hs, hbs, hr⟩
    · rintro (h | ⟨s, hs, hbs, hr⟩)
      · exact Or.inl (Or.inl h)
      · rcases List.mem_cons.mp hs with rfl | h
        · exact Or.inl (Or.inr ⟨hbs, hr⟩)
        · exact Or.inr ⟨s, h, hbs, hr⟩

theorem fold_closureLoop_nodup (g : StorePathGraph) (blocked : String → Bool) :
    ∀ (roots : List String) (acc : List String), acc.Nodup →
      (roots.foldl (fun closure root =>
        closureLoop g blocked (closureFuel g) closure [root]) acc).Nodup := by
  intro roots
  induction roots with
  | nil => intro acc hn; simpa using hn
  | cons r rs ih =>
    intro acc hn
    exact ih _ (closureLoop_nodup g blocked _ acc [r] hn)

theorem context_closure_list_mem (g : StorePathGraph) (context_roots : List String) :
    ∀ z, z ∈ context_closure_list g context_roots ↔
      ∃ r ∈ context_roots, ReachB g noBlock r z := by
  intro z
  have := (fold_closureLoop_mem g (fun _ => false) context_roots []
    (fun x hx => absurd hx (List.not_mem_nil _))).1 z
  unfold context_closure_list
  rw [this]
  simp only [List.not_mem_nil, false_or, ReachB, noBlock]
  exact Iff.rfl

theorem context_closure_list_nodup (g : StorePathGraph) (context_roots : List String) :
    (context_closure_list g context_roots).Nodup :=
  fold_closureLoop_nodup g _ context_roots [] List.nodup_nil

theorem closureLoop_skip_blocked (g : StorePathGraph) (blocked : String → Bool)
    (fuel : Nat) (closure : List String) (r : String) (hb : blocked r = true) :
    closureLoop g blocked (fuel + 1) closure [r] = closure := by
  cases fuel <;> simp [closureLoop, hb]

theorem filtered_closure_list_eq (g : StorePathGraph) (path : String)
    (context_roots : List String) :
    filtered_closure_list g path context_roots =
      context_roots.foldl (fun closure root =>
        closureLoop g (fun r => decide (r = path)) (closureFuel g) closure [root]) [] := by
  unfold filtered_closure_list
  refine List.foldl_ext _ _ _ ?_
  intro acc root _
  by_cases hroot : root = path
  · have hfuel : closureFuel g = (g.paths.length + totalRefs g + 1) * (totalRefs g + 1) + 1 :=
      rfl
    rw [if_pos hroot, hfuel,
      closureLoop_skip_blocked g _ _ acc root (by simp [hroot])]
  · rw [if_neg hroot]

theorem filtered_closure_list_mem (g : StorePathGraph) (path : String)
    (context_roots : List String) :
    ∀ z, z ∈ filtered_closure_list g path context_roots ↔
      ∃ r ∈ context_roots, ReachB g (fun x => decide (x = path)) r z := by
  intro z
  rw [filtered_closure_list_eq]
  have := (fold_closureLoop_mem g (fun x => decide (x = path)) context_roots []
    (fun x hx => absurd hx (List.not_mem_nil _))).1 z
  rw [this]
  simp [ReachB]

theorem filtered_closure_list_nodup (g : StorePathGraph) (path : String)
    (context_roots : List String) :
    (filtered_closure_list g path context_roots).Nodup := by
  rw [filtered_closure_list_eq]
  exact fold_closureLoop_nodup g _ context_roots [] List.nodup_nil

theorem sumSizes_eq_map_own (g : StorePathGraph) (l : List String) :
    sumSizes g l = (l.map (own_size g)).sum := by
  induction l with
  | nil => rfl
  | cons x xs ih =>
    cases hg : g.get_path x with
    | none =>
      have h1 : sumSizes g (x :: xs) = sumSizes g xs := by
        simp [sumSizes, List.filterMap_cons, hg]
      have h2 : own_size g x = 0 := by simp [own_size, hg]
      rw [h1, ih, List.map_cons, List.sum_cons, h2, Nat.zero_add]
    | some sp =>
      have h1 : sumSizes g (x :: xs) = sp.nar_size + sumSizes g xs := by
        simp [sumSizes, List.filterMap_cons, hg]
      have h2 : own_size g x = sp.nar_size := by simp [own_size, hg]
      rw [h1, ih, List.map_cons, List.sum_cons, h2]

theorem sumSizes_eq_finset_sum (g : StorePathGraph) (l : List String)
    (hn : l.Nodup) : sumSizes g l = ∑ x ∈ l.toFinset, own_size g x := by
  rw [sumSizes_eq_map_own]
  exact (List.sum_toFinset _ hn).symm

/-! ## C1 and C2: the size engine -/

theorem single_closure_mem (g : StorePathGraph) (s : String) :
    ∀ z, z ∈ context_closure_list g [s] ↔ ReachB g noBlock s z := by
  intro z
  rw [context_closure_list_mem]
  simp

/-- C1: for every graph, every set of context-root ids and every target
id, the on-demand added size equals `context_total − filtered_total`
saturating at zero (Nat subtraction), where `context_total` sums
`own_size` over the union closure of the context roots (each reachable id
counted once, dangling ids contributing nothing), and `filtered_total`
sums over the union closure recomputed so that the target id is never
entered, never counted, and its outgoing edges are never followed. -/
theorem added_size_is_context_minus_filtered (g : StorePathGraph)
    (context_roots : List String) (target : String) (S F : Finset String)
    (hS : ∀ z, z ∈ S ↔ ∃ r ∈ context_roots, ReachB g noBlock r z)
    (hF : ∀ z, z ∈ F ↔ ∃ r ∈ context_roots,
      ReachB g (fun x => decide (x = target)) r z) :
    calculate_added_size_for_path target g context_roots =
      (∑ x ∈ S, own_size g x) - (∑ x ∈ F, own_size g x) := by
  have hS' : S = (context_closure_list g context_roots).toFinset := by
    ext z
    rw [List.mem_toFinset]
    exact (hS z).trans (context_closure_list_mem g context_roots z).symm
  have hF' : F = (filtered_closure_list g target context_roots).toFinset := by
    ext z
    rw [List.mem_toFinset]
    exact (hF z).trans (filtered_closure_list_mem g target context_roots z).symm
  unfold calculate_added_size_for_path
  rw [sumSizes_eq_finset_sum _ _ (context_closure_list_nodup g context_roots),
    sumSizes_eq_finset_sum _ _ (filtered_closure_list_nodup g target context_roots),
    hS', hF']

/-- Witness for C1 on the concrete graph `gWit` with context `r` and
target `b`: the difference of the two closure sums, and its concrete
value 1 (only `b` itself is lost from the context when `b` is removed). -/
theorem added_size_is_context_minus_filtered_witness :
    calculate_added_size_for_path "b" gWit ["r"] =
      (∑ x ∈ (context_closure_list gWit ["r"]).toFinset, own_size gWit x) -
      (∑ x ∈ (filtered_closure_list gWit "b" ["r"]).toFinset, own_size gWit x) ∧
    calculate_added_size_for_path "b" gWit ["r"] = 1 :=
  ⟨added_size_is_context_minus_filtered gWit ["r"] "b" _ _
      (fun z => List.mem_toFinset.trans (context_closure_list_mem gWit ["r"] z))
      (fun z => List.mem_toFinset.trans (filtered_closure_list_mem gWit "b" ["r"] z)),
    by decide⟩

theorem find?_unique_key {m : List (String × PathStats)} {k : String} {v : PathStats}
    (huniq : ∀ e ∈ m, e.1 = k → e = (k, v)) (hmem : (k, v) ∈ m) :
    m.find? (fun e => decide (e.1 = k)) = some (k, v) := by
  induction m with
  | nil => cases hmem
  | cons e es ih =>
    by_cases he : e.1 = k
    · have heq : e = (k, v) := huniq e (List.mem_cons_self _ _) he
      subst heq
      exact List.find?_cons_of_pos _ (by simp)
    · rw [List.find?_cons_of_neg _ (by simp [he])]
      refine ih (fun e2 h2 hk => huniq e2 (List.mem_cons_of_mem _ h2) hk) ?_
      rcases List.mem_cons.mp hmem with h | h
      · exact absurd (by rw [← h] : e.1 = k) he
      · exact h

theorem statsGet_calculate_stats (g : StorePathGraph) (p : StorePath)
    (hids : (g.paths.map (fun q => q.path)).Nodup) (hp : p ∈ g.paths) :
    statsGet (calculate_stats g) p.path = some (mkPathStats g p) := by
  unfold statsGet
  have hmem : (p.path, mkPathStats g p) ∈ (calculate_stats g).reverse := by
    rw [List.mem_reverse]
    exact List.mem_map.mpr ⟨p, hp, rfl⟩
  have huniq : ∀ e ∈ (calculate_stats g).reverse, e.1 = p.path →
      e = (p.path, mkPathStats g p) := by
    intro e he hek
    rw [List.mem_reverse] at he
    obtain ⟨q, hq, rfl⟩ := List.mem_map.mp he
    have hqp : q = p := List.inj_on_of_nodup_map hids hq hp hek
    rw [hqp]
  rw [find?_unique_key huniq hmem]
  rfl

theorem mkPathStats_closure_of_none (g : StorePathGraph) (p : StorePath)
    (hnone : p.closure_size = none) :
    (mkPathStats g p).closure_size = sumSizes g (context_closure_list g [p.path]) := by
  simp only [mkPathStats]
  rw [hnone]
  rfl

/-- C2: for every graph (cycles, duplicate references, self-references
and dangling references included) and every node lacking a precomputed
closure size, the stats pass assigns that node a `closure_size` equal to
the sum of `own_size` over the set of ids reachable from it via
`references` (itself included), each reachable id counted exactly once,
ids absent from the store contributing nothing. -/
theorem calculate_stats_fallback_closure (g : StorePathGraph) (p : StorePath)
    (S : Finset String)
    (hids : (g.paths.map (fun q => q.path)).Nodup)
    (hp : p ∈ g.paths) (hnone : p.closure_size = none)
    (hS : ∀ z, z ∈ S ↔ ReachB g noBlock p.path z) :
    ∃ st, statsGet (calculate_stats g) p.path = some st ∧
      st.closure_size = ∑ x ∈ S, own_size g x := by
  refine ⟨mkPathStats g p, statsGet_calculate_stats g p hids hp, ?_⟩
  rw [mkPathStats_closure_of_none g p hnone,
    sumSizes_eq_finset_sum _ _ (context_closure_list_nodup g [p.path])]
  congr 1
  ext z
  rw [List.mem_toFinset]
  exact (single_closure_mem g p.path z).trans (hS z).symm

/-! ## Navigation state machine lemmas -/

theorem update_panes_current_items (app : App) :
    app.update_panes.current_items = app.current_items := by
  unfold App.update_panes; dsimp only; split <;> rfl

theorem update_panes_current_selected (app : App) :
    app.update_panes.current_selected = app.current_selected := by
  unfold App.update_panes; dsimp only; split <;> rfl

theorem update_panes_history (app : App) :
    app.update_panes.navigation_history = app.navigation_history := by
  unfold App.update_panes; dsimp only; split <;> rfl

theorem update_panes_modal (app : App) : app.update_panes.modal = app.modal := by
  unfold App.update_panes; dsimp only; split <;> rfl

theorem update_panes_searching (app : App) :
    app.update_panes.searching = app.searching := by
  unfold App.update_panes; dsimp only; split <;> rfl

theorem update_panes_stats (app : App) : app.update_panes.stats = app.stats := by
  unfold App.update_panes; dsimp only; split <;> rfl

theorem update_panes_graph (app : App) : app.update_panes.graph = app.graph := by
  unfold App.update_panes; dsimp only; split <;> rfl

theorem update_panes_active (app : App) (h : app.active_pane = Pane.Current) :
    app.update_panes.active_pane = Pane.Current := by
  unfold App.update_panes; dsimp only; split
  · exact h
  · rfl

theorem next_items_isEmpty_false (app : App) (hnext : app.next_items ≠ []) :
    app.next_items.isEmpty = false := by
  cases h : app.next_items with
  | nil => exact absurd h hnext
  | cons a as => rfl

theorem move_right_preserves (app : App) :
    app.move_right.modal = app.modal ∧ app.move_right.searching = app.searching ∧
    app.move_right.stats = app.stats ∧ app.move_right.graph = app.graph := by
  unfold App.move_right; split
  · exact ⟨rfl, rfl, rfl, rfl⟩
  · exact ⟨(update_panes_modal _).trans rfl, (update_panes_searching _).trans rfl,
      (update_panes_stats _).trans rfl, (update_panes_graph _).trans rfl⟩

theorem move_right_history (app : App) (hnext : app.next_items ≠ []) :
    app.move_right.navigation_history =
      (app.current_items, app.current_selected) :: app.navigation_history := by
  have he := next_items_isEmpty_false app hnext
  unfold App.move_right
  rw [he]
  simp only [Bool.false_eq_true, if_false]
  exact (update_panes_history _).trans rfl

theorem move_left_restores (app : App) (ci : List String) (cs : Option Nat)
    (rest : List (List String × Option Nat))
    (h : app.navigation_history = (ci, cs) :: rest) :
    app.move_left.current_items = ci ∧ app.move_left.current_selected = cs := by
  unfold App.move_left
  rw [h]
  exact ⟨(update_panes_current_items _).trans rfl,
    (update_panes_current_selected _).trans rfl⟩

/-- C6: for every Browsing-mode state whose Next pane is non-empty, the
move-right transition immediately followed by move-left restores the
Current pane's item list and its selection exactly. -/
theorem move_right_left_roundtrip (app : App) (hmodal : app.modal = none)
    (hsearch : app.searching = false) (hnext : app.next_items ≠ []) :
    (((app.handle_key KeyCode.right).1.handle_key KeyCode.left).1).current_items =
      app.current_items ∧
    (((app.handle_key KeyCode.right).1.handle_key KeyCode.left).1).current_selected =
      app.current_selected := by
  have h1 : (app.handle_key KeyCode.right).1 = app.move_right := by
    unfold App.handle_key
    rw [hmodal, hsearch]
    rfl
  have hm : app.move_right.modal = none := (move_right_preserves app).1.trans hmodal
  have hs : app.move_right.searching = false :=
    (move_right_preserves app).2.1.trans hsearch
  have h2 : (app.move_right.handle_key KeyCode.left).1 = app.move_right.move_left := by
    unfold App.handle_key
    rw [hm, hs]
    rfl
  rw [h1, h2]
  exact move_left_restores _ _ _ _ (move_right_history app hnext)

/-- Witness for C6 on the startup state of `gWit` (Next pane `[a, b]`). -/
theorem move_right_left_roundtrip_witness :
    appWit.modal = none ∧ appWit.searching = false ∧ appWit.next_items ≠ [] ∧
    (((appWit.handle_key KeyCode.right).1.handle_key KeyCode.left).1).current_items =
      appWit.current_items ∧
    (((appWit.handle_key KeyCode.right).1.handle_key KeyCode.left).1).current_selected =
      appWit.current_selected :=
  ⟨by decide, by decide, by decide,
    (move_right_left_roundtrip appWit (by decide) (by decide) (by decide)).1,
    (move_right_left_roundtrip appWit (by decide) (by decide) (by decide)).2⟩

theorem move_down_active (app : App) (h : app.active_pane = Pane.Current) :
    app.move_down.active_pane = Pane.Current := by
  unfold App.move_down; dsimp only; split
  · exact h
  · exact update_panes_active _ h

theorem move_up_active (app : App) (h : app.active_pane = Pane.Current) :
    app.move_up.active_pane = Pane.Current := by
  unfold App.move_up; split
  · split
    · exact update_panes_active _ h
    · exact h
  · exact h

theorem move_left_active (app : App) (h : app.active_pane = Pane.Current) :
    app.move_left.active_pane = Pane.Current := by
  unfold App.move_left; split
  · exact h
  · exact update_panes_active _ h

theorem move_right_active (app : App) (h : app.active_pane = Pane.Current) :
    app.move_right.active_pane = Pane.Current := by
  unfold App.move_right; split
  · exact h
  · exact update_panes_active _ h

theorem perform_search_active (app : App) (h : app.active_pane = Pane.Current) :
    app.perform_search.active_pane = Pane.Current := by
  unfold App.perform_search; dsimp only; split
  · exact h
  · split
    · exact h
    · exact update_panes_active _ rfl

theorem show_why_depends_active (app : App) (h : app.active_pane = Pane.Current) :
    app.show_why_depends.active_pane = Pane.Current := by
  unfold App.show_why_depends; dsimp only; split
  · exact h
  · split
    · exact h
    · exact h

theorem replay_path_active : ∀ (path : List String) (app : App),
    app.active_pane = Pane.Current →
    (app.replay_path path).active_pane = Pane.Current := by
  intro path
  induction path with
  | nil => exact fun app h => h
  | cons t rest ih =>
    intro app h
    unfold App.replay_path
    dsimp only
    refine ih _ ?_
    split
    · split
      · exact update_panes_active _ h
      · exact move_right_active _ (update_panes_active _ h)
    · exact h

theorem select_path_from_active (app : App) (path : List String)
    (h : app.active_pane = Pane.Current) :
    (app.select_path_from_why_depends path).active_pane = Pane.Current := by
  unfold App.select_path_from_why_depends
  exact replay_path_active _ _ h

set_option maxHeartbeats 2000000 in
theorem handle_key_active (app : App) (k : KeyCode)
    (h : app.active_pane = Pane.Current) :
    ((app.handle_key k).1).active_pane = Pane.Current := by
  unfold App.handle_key
  split
  · split <;> try exact h
    all_goals (split <;> first | exact select_path_from_active _ _ h | exact h)
  · split
    · split <;> first | exact h | exact perform_search_active _ h
    · split <;>
        first
          | exact h
          | exact update_panes_active _ h
          | exact move_down_active _ h
          | exact move_up_active _ h
          | exact move_left_active _ h
          | exact move_right_active _ h
          | exact show_why_depends_active _ h

theorem new_active (g : StorePathGraph) (stats : List (String × PathStats)) :
    (App.new g stats).active_pane = Pane.Current := by
  unfold App.new; dsimp only; split
  · rfl
  · exact update_panes_active _ rfl

/-- C10: in every reachable navigation state — from initialization through
any sequence of key events (moves, history pops, sort toggles, search
commits, modal open/close, path replay) — the active pane is the Current
pane; Previous and Next are never active. -/
theorem active_pane_always_current (g : StorePathGraph)
    (stats : List (String × PathStats)) (keys : List KeyCode) :
    (keys.foldl (fun a k => (a.handle_key k).1) (App.new g stats)).active_pane =
      Pane.Current := by
  suffices h : ∀ (ks : List KeyCode) (a : App), a.active_pane = Pane.Current →
      (ks.foldl (fun a k => (a.handle_key k).1) a).active_pane = Pane.Current from
    h keys _ (new_active g stats)
  intro ks
  induction ks with
  | nil => exact fun a h => h
  | cons k ks ih => exact fun a h => ih _ (handle_key_active a k h)

/-! ## C7: committing a search -/

theorem perform_search_searching (app : App) :
    app.perform_search.searching = app.searching := by
  unfold App.perform_search; dsimp only; split
  · rfl
  · split
    · rfl
    · exact (update_panes_searching _).trans rfl

theorem perform_search_empty (app : App)
    (h : app.search_query.data.isEmpty = true) : app.perform_search = app := by
  unfold App.perform_search
  simp [h]

theorem perform_search_nomatch (app : App)
    (h1 : app.search_query.data.isEmpty = false)
    (h2 : (app.graph.paths.filter (fun p =>
      containsSub (lowerStr p.name) (lowerStr app.search_query))).map
        (fun p => p.path) = []) :
    app.perform_search = app := by
  unfold App.perform_search
  simp [h1, h2]

theorem perform_search_match (app : App) (m : List String)
    (h1 : app.search_query.data.isEmpty = false)
    (h2 : (app.graph.paths.filter (fun p =>
      containsSub (lowerStr p.name) (lowerStr app.search_query))).map
        (fun p => p.path) = m)
    (h3 : m ≠ []) :
    app.perform_search = ({ app with
      current_items := sort_paths m app.stats app.sort_order
      current_selected := some 0
      active_pane := Pane.Current }).update_panes := by
  have hie : m.isEmpty = false := by
    cases hm : m with
    | nil => exact absurd hm h3
    | cons a as => rfl
  unfold App.perform_search
  simp [h1, h2, hie]

theorem handle_key_commit (app : App) (hmodal : app.modal = none)
    (hsearch : app.searching = true) :
    (app.handle_key KeyCode.enter).1 =
      ({ app with searching := false }).perform_search := by
  unfold App.handle_key
  rw [hmodal, hsearch]
  rfl

/-- C7 (as corrected): committing a search case-insensitively substring
matches the query against every node's display name across the whole
graph; with at least one match, Current becomes exactly the matching ids
sorted by the current order, the first is selected, the machine returns
to Browsing and a focus refresh runs.  With an empty query or no match the
commit leaves everything unchanged EXCEPT that it still returns to
Browsing (the searching flag is cleared before `perform_search` runs). -/
theorem search_commit_spec (app : App) (hmodal : app.modal = none)
    (hsearch : app.searching = true) :
    ((app.handle_key KeyCode.enter).1).searching = false ∧
    (app.search_query.data.isEmpty = true →
      (app.handle_key KeyCode.enter).1 = { app with searching := false }) ∧
    (app.search_query.data.isEmpty = false →
      ((app.graph.paths.filter (fun p =>
          containsSub (lowerStr p.name) (lowerStr app.search_query))).map
            (fun p => p.path) = [] →
        (app.handle_key KeyCode.enter).1 = { app with searching := false }) ∧
      (∀ m, (app.graph.paths.filter (fun p =>
          containsSub (lowerStr p.name) (lowerStr app.search_query))).map
            (fun p => p.path) = m → m ≠ [] →
        (app.handle_key KeyCode.enter).1 = ({ app with
          searching := false
          current_items := sort_paths m app.stats app.sort_order
          current_selected := some 0
          active_pane := Pane.Current }).update_panes)) := by
  have hc := handle_key_commit app hmodal hsearch
  refine ⟨?_, ?_, ?_⟩
  · rw [hc]
    exact (perform_search_searching _).trans rfl
  · intro he
    rw [hc]
    exact perform_search_empty _ he
  · intro he
    refine ⟨fun hm0 => ?_, fun m hm hne => ?_⟩
    · rw [hc]
      exact perform_search_nomatch _ he hm0
    · rw [hc]
      exact perform_search_match _ m he hm hne

/-- C7 counterexample: committing with an empty query does NOT leave the
state unchanged, contrary to the claim — search mode is exited
(`searching` flips from true to false; the rest is untouched). -/
theorem search_commit_empty_changes_state :
    appSearching.searching = true ∧ appSearching.search_query = "" ∧
    ((appSearching.handle_key KeyCode.enter).1).searching = false ∧
    (appSearching.handle_key KeyCode.enter).1 ≠ appSearching := by
  refine ⟨by decide, by decide, by decide, ?_⟩
  intro heq
  exact absurd (congrArg App.searching heq) (by decide)

/-- Witness for C7 on `appSearchA` (query `a` over `gWit`): the commit
leaves search mode and Current becomes exactly the single match `a`. -/
theorem search_commit_spec_witness :
    appSearchA.modal = none ∧ appSearchA.searching = true ∧
    ((appSearchA.handle_key KeyCode.enter).1).searching = false ∧
    ((appSearchA.handle_key KeyCode.enter).1).current_items = ["a"] :=
  ⟨by decide, by decide,
    (search_commit_spec appSearchA (by decide) (by decide)).1, by decide⟩

/-! ## C8: modal horizontal scrolling -/

/-- C8 (as corrected): in the modal, left decreases the horizontal offset
by 5 saturating at zero, right increases it by 5 clamped above by
`max_line_width − 20` (a hardcoded buffer, not the viewport width); as a
consequence the offset stays within `[0, max_line_width − 20]` once
there. -/
theorem modal_scroll_clamped (app : App) (ps : List (List String))
    (fl : List String) (mlw sel hs : Nat)
    (hm : app.modal = some (Modal.whyDepends ps fl mlw sel hs)) :
    modalScroll ((app.handle_key KeyCode.left).1) = some (hs - 5) ∧
    modalScroll ((app.handle_key KeyCode.right).1) = some (min (hs + 5) (mlw - 20)) ∧
    (hs ≤ mlw - 20 →
      hs - 5 ≤ mlw - 20 ∧ min (hs + 5) (mlw - 20) ≤ mlw - 20) := by
  refine ⟨?_, ?_, fun hbound => ⟨le_trans (Nat.sub_le _ _) hbound,
    Nat.min_le_right _ _⟩⟩
  · unfold App.handle_key
    rw [hm]
    rfl
  · unfold App.handle_key
    rw [hm]
    rfl

/-- C8 counterexample: with the modal offset at 0, a left input leaves it
at 0 — it does not change the offset by exactly 5 (saturation at the
lower edge). -/
theorem modal_scroll_left_edge_cex :
    modalScroll appModal = some 0 ∧
    modalScroll ((appModal.handle_key KeyCode.left).1) = some 0 :=
  ⟨by decide, by decide⟩

/-- Witness for C8 on `appModal` (offset 0, longest line 40): left stays
at 0, right moves to 5. -/
theorem modal_scroll_clamped_witness :
    appModal.modal = some (Modal.whyDepends [["r"]] ["r"] 40 0 0) ∧
    modalScroll ((appModal.handle_key KeyCode.left).1) = some 0 ∧
    modalScroll ((appModal.handle_key KeyCode.right).1) = some 5 :=
  ⟨rfl, (modal_scroll_clamped appModal [["r"]] ["r"] 40 0 0 rfl).1,
    (modal_scroll_clamped appModal [["r"]] ["r"] 40 0 0 rfl).2.1⟩

/-! ## C4: added size is recomputed, not cached -/

theorem move_down_sg (app : App) :
    app.move_down.stats = app.stats ∧ app.move_down.graph = app.graph := by
  unfold App.move_down; dsimp only; split
  · exact ⟨rfl, rfl⟩
  · exact ⟨(update_panes_stats _).trans rfl, (update_panes_graph _).trans rfl⟩

theorem move_up_sg (app : App) :
    app.move_up.stats = app.stats ∧ app.move_up.graph = app.graph := by
  unfold App.move_up; split
  · split
    · exact ⟨(update_panes_stats _).trans rfl, (update_panes_graph _).trans rfl⟩
    · exact ⟨rfl, rfl⟩
  · exact ⟨rfl, rfl⟩

theorem move_left_sg (app : App) :
    app.move_left.stats = app.stats ∧ app.move_left.graph = app.graph := by
  unfold App.move_left; split
  · exact ⟨rfl, rfl⟩
  · exact ⟨(update_panes_stats _).trans rfl, (update_panes_graph _).trans rfl⟩

theorem perform_search_sg (app : App) :
    app.perform_search.stats = app.stats ∧ app.perform_search.graph = app.graph := by
  unfold App.perform_search; dsimp only; split
  · exact ⟨rfl, rfl⟩
  · split
    · exact ⟨rfl, rfl⟩
    · exact ⟨(update_panes_stats _).trans rfl, (update_panes_graph _).trans rfl⟩

theorem show_why_depends_sg (app : App) :
    app.show_why_depends.stats = app.stats ∧
    app.show_why_depends.graph = app.graph := by
  unfold App.show_why_depends; dsimp only; split
  · exact ⟨rfl, rfl⟩
  · split
    · exact ⟨rfl, rfl⟩
    · exact ⟨rfl, rfl⟩

theorem replay_path_s : ∀ (path : List String) (app : App),
    (app.replay_path path).stats = app.stats := by
  intro path
  induction path with
  | nil => exact fun app => rfl
  | cons t rest ih =>
    intro app
    unfold App.replay_path
    dsimp only
    refine (ih _).trans ?_
    split
    · split
      · exact (update_panes_stats _).trans rfl
      · exact ((move_right_preserves _).2.2.1).trans
          ((update_panes_stats _).trans rfl)
    · rfl

theorem replay_path_g : ∀ (path : List String) (app : App),
    (app.replay_path path).graph = app.graph := by
  intro path
  induction path with
  | nil => exact fun app => rfl
  | cons t rest ih =>
    intro app
    unfold App.replay_path
    dsimp only
    refine (ih _).trans ?_
    split
    · split
      · exact (update_panes_graph _).trans rfl
      · exact ((move_right_preserves _).2.2.2).trans
          ((update_panes_graph _).trans rfl)
    · rfl

theorem select_path_from_sg (app : App) (path : List String) :
    (app.select_path_from_why_depends path).stats = app.stats ∧
    (app.select_path_from_why_depends path).graph = app.graph := by
  unfold App.select_path_from_why_depends
  exact ⟨(replay_path_s _ _).trans rfl, (replay_path_g _ _).trans rfl⟩

set_option maxHeartbeats 2000000 in
theorem handle_key_sg (app : App) (k : KeyCode) :
    ((app.handle_key k).1).stats = app.stats ∧
    ((app.handle_key k).1).graph = app.graph := by
  unfold App.handle_key
  split
  · split <;> try exact ⟨rfl, rfl⟩
    all_goals
      (split <;>
        first
          | exact ⟨(select_path_from_sg _ _).1.trans rfl,
              (select_path_from_sg _ _).2.trans rfl⟩
          | exact ⟨rfl, rfl⟩)
  · split
    · split <;>
        first
          | exact ⟨rfl, rfl⟩
          | exact ⟨(perform_search_sg _).1.trans rfl, (perform_search_sg _).2.trans rfl⟩
    · split <;>
        first
          | exact ⟨rfl, rfl⟩
          | exact ⟨(update_panes_stats _).trans rfl, (update_panes_graph _).trans rfl⟩
          | exact move_down_sg _
          | exact move_up_sg _
          | exact move_left_sg _
          | exact ⟨(move_right_preserves _).2.2.1, (move_right_preserves _).2.2.2⟩
          | exact show_why_depends_sg _

theorem new_sg (g : StorePathGraph) (stats : List (String × PathStats)) :
    (App.new g stats).stats = stats ∧ (App.new g stats).graph = g := by
  unfold App.new; dsimp only; split
  · exact ⟨rfl, rfl⟩
  · exact ⟨(update_panes_stats _).trans rfl, (update_panes_graph _).trans rfl⟩

theorem statsGet_added_none (g : StorePathGraph) (k : String) (st : PathStats)
    (h : statsGet (calculate_stats g) k = some st) : st.added_size = none := by
  unfold statsGet at h
  obtain ⟨e, hfind, hsnd⟩ := Option.map_eq_some'.mp h
  have he : e ∈ (calculate_stats g).reverse := List.mem_of_find?_eq_some hfind
  rw [List.mem_reverse] at he
  obtain ⟨p, _, rfl⟩ := List.mem_map.mp he
  rw [← hsnd]
  rfl

/-- C4 (as corrected): after the stats pass every `added_size` is `none`
and STAYS `none` — no key handling ever writes the stats map, and the
status bar recomputes the added size from the current parent context on
every query instead of reusing a stored value.  (The claim's lazily-filled
cache does not exist: `render_status_bar` borrows the app immutably and
discards the computed value.) -/
theorem added_size_recomputed_not_cached (g : StorePathGraph)
    (keys : List KeyCode) (p : String) (st : PathStats)
    (hst : statsGet (calculate_stats g) p = some st) :
    st.added_size = none ∧
    (keys.foldl (fun a k => (a.handle_key k).1) (App.new g (calculate_stats g))).stats =
      calculate_stats g ∧
    status_bar_added_size
        (keys.foldl (fun a k => (a.handle_key k).1) (App.new g (calculate_stats g))) p =
      calculate_added_size_for_path p g
        ((keys.foldl (fun a k => (a.handle_key k).1)
            (App.new g (calculate_stats g))).get_parent_context) := by
  have hpres : ∀ (ks : List KeyCode) (a : App), a.stats = calculate_stats g →
      a.graph = g →
      (ks.foldl (fun a k => (a.handle_key k).1) a).stats = calculate_stats g ∧
      (ks.foldl (fun a k => (a.handle_key k).1) a).graph = g := by
    intro ks
    induction ks with
    | nil => exact fun a hs hg => ⟨hs, hg⟩
    | cons k ks ih =>
      intro a hs hg
      exact ih _ ((handle_key_sg a k).1.trans hs) ((handle_key_sg a k).2.trans hg)
  obtain ⟨hstats, hgraph⟩ :=
    hpres keys _ (new_sg g (calculate_stats g)).1 (new_sg g (calculate_stats g)).2
  have hnone := statsGet_added_none g p st hst
  refine ⟨hnone, hstats, ?_⟩
  unfold status_bar_added_size
  rw [hstats, hst]
  dsimp only
  rw [hnone]
  dsimp only
  rw [hgraph]

/-- C4 counterexample: after navigating into `r` (parent context `[r]`),
the status bar computes added size 1 for `b` on demand, yet the stored
`PathStats` entry still holds `added_size = none` — the value is never
written back, so the claimed per-entry cache does not exist. -/
theorem added_size_not_stored_cex :
    status_bar_added_size appWit.move_right "b" = 1 ∧
    (statsGet appWit.move_right.stats "b").map (fun s => s.added_size) =
      some none :=
  ⟨by decide, by decide⟩

/-- Witness for C4: a concrete run (moving right once) in which the stats
entry for `b` still carries `added_size = none` while the status bar
recomputes the value. -/
theorem added_size_recomputed_not_cached_witness :
    (∃ st, statsGet (calculate_stats gWit) "b" = some st ∧ st.added_size = none) ∧
    ([KeyCode.right].foldl (fun a k => (a.handle_key k).1)
        (App.new gWit (calculate_stats gWit))).stats = calculate_stats gWit ∧
    status_bar_added_size
        ([KeyCode.right].foldl (fun a k => (a.handle_key k).1)
          (App.new gWit (calculate_stats gWit))) "b" =
      calculate_added_size_for_path "b" gWit
        (([KeyCode.right].foldl (fun a k => (a.handle_key k).1)
            (App.new gWit (calculate_stats gWit))).get_parent_context) := by
  have hex : ∃ st, statsGet (calculate_stats gWit) "b" = some st ∧
      st.added_size = none := by decide
  obtain ⟨st, h1, h2⟩ := hex
  exact ⟨⟨st, h1, h2⟩,
    (added_size_recomputed_not_cached gWit [KeyCode.right] "b" st h1).2.1,
    (added_size_recomputed_not_cached gWit [KeyCode.right] "b" st h1).2.2⟩

/-! ## C9: display-name disambiguation -/

/-- C9: after the one-time disambiguation pass, every node whose display
name was shared by two or more nodes carries the name
`<first 8 chars of hash>-<original name>` (in particular it does not
retain the bare original name) with all other fields intact, and every
node whose name was unique is left completely untouched. -/
theorem disambiguate_names_spec (g : StorePathGraph) (i : Nat) (p : StorePath)
    (hp : g.paths.get? i = some p) :
    ∃ q, g.disambiguate_names.paths.get? i = some q ∧
      (nameCount g p.name > 1 →
        q.name = strTake p.hash 8 ++ "-" ++ p.name ∧ q.name ≠ p.name ∧
        q.path = p.path ∧ q.hash = p.hash ∧ q.nar_size = p.nar_size ∧
        q.closure_size = p.closure_size ∧ q.references = p.references ∧
        q.signatures = p.signatures) ∧
      (¬ nameCount g p.name > 1 → q = p) := by
  refine ⟨if nameCount g p.name > 1 then
      { p with name := strTake p.hash 8 ++ "-" ++ p.name } else p, ?_, ?_, ?_⟩
  · unfold StorePathGraph.disambiguate_names
    simp only [List.get?_map, hp, Option.map_some']
  · intro h
    rw [if_pos h]
    refine ⟨rfl, ?_, rfl, rfl, rfl, rfl, rfl, rfl⟩
    intro heq
    have hd : ((strTake p.hash 8).data ++ "-".data) ++ p.name.data = p.name.data :=
      congrArg String.data heq
    have hlen := congrArg List.length hd
    simp only [List.length_append, List.length_cons, List.length_nil] at hlen
    omega
  · intro h
    rw [if_neg h]

/-- Witness for C9 on `gDup`: the first `foo` node is rewritten to
`aaaabbbb-foo` with all other fields kept, and the full pass yields
exactly the expected three names (the unique `bar` untouched). -/
theorem disambiguate_names_spec_witness :
    (∃ q, gDup.disambiguate_names.paths.get? 0 = some q ∧
      (nameCount gDup "foo" > 1 →
        q.name = "aaaabbbb-foo" ∧ q.name ≠ "foo" ∧
        q.path = dupA.path ∧ q.hash = dupA.hash ∧ q.nar_size = dupA.nar_size ∧
        q.closure_size = dupA.closure_size ∧ q.references = dupA.references ∧
        q.signatures = dupA.signatures) ∧
      (¬ nameCount gDup "foo" > 1 → q = dupA)) ∧
    gDup.disambiguate_names.paths.map (fun p => p.name) =
      ["aaaabbbb-foo", "11112222-foo", "bar"] :=
  ⟨disambiguate_names_spec gDup 0 dupA rfl, by decide⟩

/-- Witness for C2 on the cyclic graph `gCyc` at node `a` (whose
`closure_size` is `none`): the fallback closure size is the reachable-set
sum, concretely 7 (a + b + c, the dangling `d0` contributing nothing, the
`c → c` self-loop counted once). -/
theorem calculate_stats_fallback_closure_witness :
    (∃ st, statsGet (calculate_stats gCyc) "a" = some st ∧
      st.closure_size = ∑ x ∈ (context_closure_list gCyc ["a"]).toFinset,
        own_size gCyc x) ∧
    (statsGet (calculate_stats gCyc) "a").map (fun s => s.closure_size) = some 7 :=
  ⟨calculate_stats_fallback_closure gCyc (fixPath "a" 1 ["b"]) _
      (by decide) (by decide) rfl
      (fun z => List.mem_toFinset.trans (single_closure_mem gCyc "a" z)),
    by decide⟩

/-! ## C3 and C5: why-depends soundness and truncation -/

theorem toPaths_shape (t : Treeish) : ∀ p ∈ t.toPaths, p ≠ [] ∧ p.head? = some t.node := by
  cases t with
  | mk n cs =>
    intro p hp
    unfold Treeish.toPaths at hp
    by_cases he : cs.isEmpty
    · rw [if_pos he] at hp
      rcases List.mem_singleton.mp hp with rfl
      exact ⟨by simp, rfl⟩
    · rw [if_neg he] at hp
      obtain ⟨q, _, rfl⟩ := List.mem_map.mp hp
      exact ⟨by simp, rfl⟩

mutual
theorem toPaths_subset_nodes : ∀ (t : Treeish), ∀ p ∈ t.toPaths, ∀ x ∈ p, x ∈ t.nodes
  | .mk n cs => by
    intro p hp x hx
    unfold Treeish.toPaths at hp
    unfold Treeish.nodes
    by_cases he : cs.isEmpty
    · rw [if_pos he] at hp
      rcases List.mem_singleton.mp hp with rfl
      rcases List.mem_singleton.mp hx with rfl
      exact List.mem_cons_self _ _
    · rw [if_neg he] at hp
      obtain ⟨q, hq, rfl⟩ := List.mem_map.mp hp
      rcases List.mem_cons.mp hx with rfl | hx
      · exact List.mem_cons_self _ _
      · exact List.mem_cons_of_mem _ (childPaths_subset_nodesList cs q hq x hx)

theorem childPaths_subset_nodesList : ∀ (l : TreeishList), ∀ p ∈ l.childPaths,
    ∀ x ∈ p, x ∈ l.nodesList
  | .nil => by
    intro p hp
    simp [TreeishList.childPaths] at hp
  | .cons c rest => by
    intro p hp x hx
    unfold TreeishList.childPaths at hp
    unfold TreeishList.nodesList
    rcases List.mem_append.mp hp with h | h
    · exact List.mem_append.mpr (Or.inl (toPaths_subset_nodes c p h x hx))
    · exact List.mem_append.mpr (Or.inr (childPaths_subset_nodesList rest p h x hx))
end

theorem ofList_isEmpty_false (l : List Treeish) (h : l ≠ []) :
    (TreeishList.ofList l).isEmpty = false := by
  cases l with
  | nil => exact absurd rfl h
  | cons c cs => rfl

theorem childPaths_ofList (l : List Treeish) (p : List String) :
    p ∈ (TreeishList.ofList l).childPaths ↔ ∃ t ∈ l, p ∈ t.toPaths := by
  induction l with
  | nil => simp [TreeishList.ofList, TreeishList.childPaths]
  | cons c cs ih =>
    unfold TreeishList.ofList TreeishList.childPaths
    rw [List.mem_append, ih]
    constructor
    · rintro (h | ⟨t, ht, hp⟩)
      · exact ⟨c, List.mem_cons_self _ _, h⟩
      · exact ⟨t, List.mem_cons_of_mem _ ht, hp⟩
    · rintro ⟨t, ht, hp⟩
      rcases List.mem_cons.mp ht with rfl | ht
      · exact Or.inl hp
      · exact Or.inr ⟨t, ht, hp⟩

theorem nodesList_ofList (l : List Treeish) (x : String) :
    x ∈ (TreeishList.ofList l).nodesList ↔ ∃ t ∈ l, x ∈ t.nodes := by
  induction l with
  | nil => simp [TreeishList.ofList, TreeishList.nodesList]
  | cons c cs ih =>
    unfold TreeishList.ofList TreeishList.nodesList
    rw [List.mem_append, ih]
    constructor
    · rintro (h | ⟨t, ht, hp⟩)
      · exact ⟨c, List.mem_cons_self _ _, h⟩
      · exact ⟨t, List.mem_cons_of_mem _ ht, hp⟩
    · rintro ⟨t, ht, hp⟩
      rcases List.mem_cons.mp ht with rfl | ht
      · exact Or.inl hp
      · exact Or.inr ⟨t, ht, hp⟩

theorem chainB_cons_cons (g : StorePathGraph) (a b : String) (bs : List String) :
    chainB g (a :: b :: bs) = true ↔ rawEdge g a b ∧ chainB g (b :: bs) = true := by
  simp [chainB]

theorem getLast?_cons_of_ne (a : String) (q : List String) (h : q ≠ []) :
    (a :: q).getLast? = q.getLast? := by
  cases q with
  | nil => exact absurd rfl h
  | cons b bs => exact List.getLast?_cons_cons

theorem treeSound_leaf (g : StorePathGraph) (target : String) :
    TreeSound g target (Treeish.mk target TreeishList.nil) := by
  intro p hp
  unfold Treeish.toPaths at hp
  simp only [TreeishList.isEmpty, if_true] at hp
  rcases List.mem_singleton.mp hp with rfl
  exact ⟨rfl, rfl, by simp, rfl⟩

theorem treeSound_mk (g : StorePathGraph) (target node : String) (ts : List Treeish)
    (hne : ts ≠ [])
    (hall : ∀ t ∈ ts, TreeSound g target t ∧ rawEdge g node t.node ∧ node ∉ t.nodes) :
    TreeSound g target (Treeish.mk node (TreeishList.ofList ts)) := by
  intro p hp
  unfold Treeish.toPaths at hp
  rw [if_neg (by rw [ofList_isEmpty_false ts hne]; exact Bool.false_ne_true)] at hp
  obtain ⟨q, hq, rfl⟩ := List.mem_map.mp hp
  obtain ⟨t, ht, hqt⟩ := (childPaths_ofList ts q).mp hq
  obtain ⟨hTS, hedge, hnotin⟩ := hall t ht
  obtain ⟨hq_ne, hq_head⟩ := toPaths_shape t q hqt
  obtain ⟨_, hlast, hnodup, hchain⟩ := hTS q hqt
  refine ⟨rfl, ?_, ?_, ?_⟩
  · rw [getLast?_cons_of_ne _ _ hq_ne]
    exact hlast
  · rw [List.nodup_cons]
    exact ⟨fun hx => hnotin (toPaths_subset_nodes t q hqt node hx), hnodup⟩
  · cases q with
    | nil => exact absurd rfl hq_ne
    | cons b bs =>
      have hb : b = t.node := by simpa using hq_head
      rw [chainB_cons_cons]
      exact ⟨hb ▸ hedge, hchain⟩

theorem cachedSome_mono {c c' : List (String × Option Treeish)} {x : String}
    (hsub : ∀ e ∈ c, e ∈ c') : CachedSome c x → CachedSome c' x :=
  fun ⟨t, ht⟩ => ⟨t, hsub _ ht⟩

theorem not_in_cache_of_find?_none {cache : List (String × Option Treeish)}
    {k : String} (h : cache.find? (fun e => decide (e.1 = k)) = none) :
    ∀ r, (k, r) ∉ cache := by
  intro r hr
  have := List.find?_eq_none.mp h _ hr
  simp at this

theorem build_fold_sound (g : StorePathGraph) (target : String) (fuel : Nat)
    (ih : ∀ (node : String) (cache : List (String × Option Treeish))
      (visited : List String), CacheOk g target cache →
      VisitedFresh cache visited → BuildPost g target fuel node cache visited)
    (visited' : List String) :
    ∀ (refs : List String) (acc : List Treeish)
      (cache : List (String × Option Treeish)),
      CacheOk g target cache → VisitedFresh cache visited' →
      ∀ res, refs.foldl (fun a2 reference =>
          match build_treeish g target fuel reference a2.2 visited' with
          | (some tree, c) => (a2.1 ++ [tree], c)
          | (none, c) => (a2.1, c)) (acc, cache) = res →
      (∀ e ∈ cache, e ∈ res.2) ∧
      (∀ e ∈ res.2, e ∈ cache ∨ (e.1 ∉ visited' ∧ ∀ r2, (e.1, r2) ∉ cache)) ∧
      CacheOk g target res.2 ∧ VisitedFresh res.2 visited' ∧
      (∀ t ∈ res.1, t ∈ acc ∨ (t.node ∈ refs ∧ TreeSound g target t ∧
        ∀ x ∈ t.nodes, CachedSome res.2 x)) := by
  intro refs
  induction refs with
  | nil =>
    intro acc cache hC hV res hres
    rw [List.foldl_nil] at hres
    subst hres
    exact ⟨fun e he => he, fun e he => Or.inl he, hC, hV, fun t ht => Or.inl ht⟩
  | cons reference rest irest =>
    intro acc cache hC hV res hres
    rw [List.foldl_cons] at hres
    have hpost := ih reference cache visited' hC hV
    unfold BuildPost at hpost
    rcases hstep : build_treeish g target fuel reference cache visited' with ⟨r1, c1⟩
    rw [hstep] at hpost hres
    obtain ⟨p1, p2, p3, p4, p5⟩ := hpost
    cases r1 with
    | none =>
      have hres' := hres
      obtain ⟨q1, q2, q3, q4, q5⟩ := irest acc c1 p3 p4 res hres'
      refine ⟨fun e he => q1 e (p1 e he), ?_, q3, q4, ?_⟩
      · intro e he
        rcases q2 e he with h | ⟨hnv, hnc⟩
        · rcases p2 e h with h2 | ⟨hnv2, hnc2⟩
          · exact Or.inl h2
          · exact Or.inr ⟨hnv2, hnc2⟩
        · exact Or.inr ⟨hnv, fun r2 hr2 => hnc r2 (p1 _ hr2)⟩
      · intro t ht
        rcases q5 t ht with h | ⟨hn, hs, hnodes⟩
        · exact Or.inl h
        · exact Or.inr ⟨List.mem_cons_of_mem _ hn, hs, hnodes⟩
    | some tree =>
      obtain ⟨htn, hts, htnodes⟩ := p5 tree rfl
      obtain ⟨q1, q2, q3, q4, q5⟩ := irest (acc ++ [tree]) c1 p3 p4 res hres
      refine ⟨fun e he => q1 e (p1 e he), ?_, q3, q4, ?_⟩
      · intro e he
        rcases q2 e he with h | ⟨hnv, hnc⟩
        · rcases p2 e h with h2 | ⟨hnv2, hnc2⟩
          · exact Or.inl h2
          · exact Or.inr ⟨hnv2, hnc2⟩
        · exact Or.inr ⟨hnv, fun r2 hr2 => hnc r2 (p1 _ hr2)⟩
      · intro t ht
        rcases q5 t ht with h | ⟨hn, hs, hnodes⟩
        · rcases List.mem_append.mp h with h2 | h2
          · exact Or.inl h2
          · rcases List.mem_singleton.mp h2 with rfl
            refine Or.inr ⟨htn ▸ List.mem_cons_self _ _, hts, ?_⟩
            intro x hx
            exact cachedSome_mono q1 (htnodes x hx)
        · exact Or.inr ⟨List.mem_cons_of_mem _ hn, hs, hnodes⟩

set_option maxHeartbeats 2000000 in
theorem build_treeish_sound (g : StorePathGraph) (target : String) :
    ∀ (fuel : Nat) (node : String) (cache : List (String × Option Treeish))
      (visited : List String),
      CacheOk g target cache → VisitedFresh cache visited →
      BuildPost g target fuel node cache visited := by
  intro fuel
  induction fuel with
  | zero =>
    intro node cache visited hC hV
    refine ⟨fun e he => he, fun e he => Or.inl he, hC, hV, fun t ht => ?_⟩
    simp [build_treeish] at ht
  | succ fuel ih =>
    intro node cache visited hC hV
    unfold BuildPost
    cases hf : cache.find? (fun e => decide (e.1 = node)) with
    | some e =>
      have heq : build_treeish g target (fuel + 1) node cache visited = (e.2, cache) := by
        unfold build_treeish
        rw [hf]
      rw [heq]
      refine ⟨fun e2 he2 => he2, fun e2 he2 => Or.inl he2, hC, hV, fun t ht => ?_⟩
      have hmem : e ∈ cache := List.mem_of_find?_eq_some hf
      have hkey : e.1 = node := by
        have := List.find?_some hf
        simpa using this
      obtain ⟨h1, h2, h3⟩ := hC e hmem t ht
      exact ⟨h1.trans hkey, h2, h3⟩
    | none =>
      have hnc := not_in_cache_of_find?_none hf
      by_cases hv : node ∈ visited
      · have heq : build_treeish g target (fuel + 1) node cache visited =
            (none, cache) := by
          simp only [build_treeish, hf, hv, if_true]
        rw [heq]
        refine ⟨fun e2 he2 => he2, fun e2 he2 => Or.inl he2, hC, hV, fun t ht => ?_⟩
        cases ht
      · by_cases ht : node = target
        · rw [ht] at hf hv hnc ⊢
          have heq : build_treeish g target (fuel + 1) target cache visited =
              (some (Treeish.mk target TreeishList.nil),
                (target, some (Treeish.mk target TreeishList.nil)) :: cache) := by
            simp only [build_treeish, hf, hv, if_false, if_true, eq_self_iff_true]
          rw [heq]
          have hleafnodes : ∀ x ∈ (Treeish.mk target TreeishList.nil).nodes,
              CachedSome ((target, some (Treeish.mk target TreeishList.nil)) :: cache) x := by
            intro x hx
            unfold Treeish.nodes TreeishList.nodesList at hx
            rcases List.mem_singleton.mp hx with rfl
            exact ⟨Treeish.mk x TreeishList.nil, List.mem_cons_self _ _⟩
          refine ⟨fun e2 he2 => List.mem_cons_of_mem _ he2, ?_, ?_, ?_, ?_⟩
          · intro e2 he2
            rcases List.mem_cons.mp he2 with rfl | he2
            · exact Or.inr ⟨hv, hnc⟩
            · exact Or.inl he2
          · intro e2 he2 t het
            rcases List.mem_cons.mp he2 with rfl | he2
            · cases het
              exact ⟨rfl, treeSound_leaf g target, hleafnodes⟩
            · obtain ⟨h1, h2, h3⟩ := hC e2 he2 t het
              exact ⟨h1, h2, fun x hx => cachedSome_mono
                (fun e3 he3 => List.mem_cons_of_mem _ he3) (h3 x hx)⟩
          · intro v hvv r hr
            rcases List.mem_cons.mp hr with h | h
            · have hveq : v = target := congrArg Prod.fst h
              exact hv (hveq ▸ hvv)
            · exact hV v hvv r h
          · intro t htt
            cases htt
            exact ⟨rfl, treeSound_leaf g target, hleafnodes⟩
        · cases hg : g.get_path node with
          | none =>
            have heq : build_treeish g target (fuel + 1) node cache visited =
                (none, (node, (none : Option Treeish)) :: cache) := by
              simp only [build_treeish, hf, hv, ht, hg, if_false]
            rw [heq]
            refine ⟨fun e2 he2 => List.mem_cons_of_mem _ he2, ?_, ?_, ?_, fun t htt => by cases htt⟩
            · intro e2 he2
              rcases List.mem_cons.mp he2 with rfl | he2
              · exact Or.inr ⟨hv, hnc⟩
              · exact Or.inl he2
            · intro e2 he2 t het
              rcases List.mem_cons.mp he2 with rfl | he2
              · cases het
              · obtain ⟨h1, h2, h3⟩ := hC e2 he2 t het
                exact ⟨h1, h2, fun x hx => cachedSome_mono
                  (fun e3 he3 => List.mem_cons_of_mem _ he3) (h3 x hx)⟩
            · intro v hvv r hr
              rcases List.mem_cons.mp hr with h | h
              · have hveq : v = node := congrArg Prod.fst h
                exact hv (hveq ▸ hvv)
              · exact hV v hvv r h
          | some sp =>
            have hV' : VisitedFresh cache (node :: visited) := by
              intro v hvv r hr
              rcases List.mem_cons.mp hvv with rfl | hvv
              · exact hnc r hr
              · exact hV v hvv r hr
            rcases hbc : sp.references.foldl (fun a2 reference =>
                match build_treeish g target fuel reference a2.2 (node :: visited) with
                | (some tree, c) => (a2.1 ++ [tree], c)
                | (none, c) => (a2.1, c)) (([] : List Treeish), cache) with ⟨trees, cOut⟩
            obtain ⟨f1, f2, f3, f4, f5⟩ := build_fold_sound g target fuel ih
              (node :: visited) sp.references [] cache hC hV' (trees, cOut) hbc
            have h2weak : ∀ e2 ∈ cOut, e2 ∈ cache ∨
                (e2.1 ∉ visited ∧ ∀ r2, (e2.1, r2) ∉ cache) := by
              intro e2 he2
              rcases f2 e2 he2 with h | ⟨hnv, hnc2⟩
              · exact Or.inl h
              · exact Or.inr ⟨fun hin => hnv (List.mem_cons_of_mem _ hin), hnc2⟩
            have hnode_not_cached : ¬ CachedSome cOut node := by
              rintro ⟨t', ht'⟩
              rcases f2 _ ht' with h | ⟨hnv, _⟩
              · exact hnc _ h
              · exact hnv (List.mem_cons_self _ _)
            have hfresh : VisitedFresh cOut visited := by
              intro v hvv r hr
              exact f4 v (List.mem_cons_of_mem _ hvv) r hr
            by_cases hbe : trees.isEmpty
            · have heq : build_treeish g target (fuel + 1) node cache visited =
                  ((none : Option Treeish), (node, (none : Option Treeish)) :: cOut) := by
                simp only [build_treeish, hf, hv, ht, hg, if_false, hbc, hbe, if_true]
              rw [heq]
              refine ⟨fun e2 he2 => List.mem_cons_of_mem _ (f1 e2 he2), ?_, ?_, ?_,
                fun t htt => by cases htt⟩
              · intro e2 he2
                rcases List.mem_cons.mp he2 with rfl | he2
                · exact Or.inr ⟨hv, hnc⟩
                · exact h2weak e2 he2
              · intro e2 he2 t het
                rcases List.mem_cons.mp he2 with rfl | he2
                · cases het
                · obtain ⟨h1, h2, h3⟩ := f3 e2 he2 t het
                  exact ⟨h1, h2, fun x hx => cachedSome_mono
                    (fun e3 he3 => List.mem_cons_of_mem _ he3) (h3 x hx)⟩
              · intro v hvv r hr
                rcases List.mem_cons.mp hr with h | h
                · have hveq : v = node := congrArg Prod.fst h
                  exact hv (hveq ▸ hvv)
                · exact hfresh v hvv r h
            · have heq : build_treeish g target (fuel + 1) node cache visited =
                  (some (Treeish.mk node (TreeishList.ofList trees)),
                    (node, some (Treeish.mk node (TreeishList.ofList trees))) :: cOut) := by
                simp only [build_treeish, hf, hv, ht, hg, if_false, hbc, hbe, if_true]
                rfl
              rw [heq]
              have htrees_ne : trees ≠ [] := by
                intro h
                rw [h] at hbe
                exact hbe rfl
              have hchild : ∀ t ∈ trees, TreeSound g target t ∧
                  rawEdge g node t.node ∧ node ∉ t.nodes := by
                intro t htt
                rcases f5 t htt with h | ⟨hn, hs, hnodes⟩
                · exact absurd h (List.not_mem_nil _)
                · refine ⟨hs, ?_, ?_⟩
                  · rw [rawEdge, refsOf_eq_of_get_path hg]
                    exact hn
                  · intro hxn
                    exact hnode_not_cached (hnodes node hxn)
              have hsound : TreeSound g target
                  (Treeish.mk node (TreeishList.ofList trees)) :=
                treeSound_mk g target node trees htrees_ne hchild
              have hnodes2 : ∀ x ∈ (Treeish.mk node (TreeishList.ofList trees)).nodes,
                  CachedSome ((node, some (Treeish.mk node (TreeishList.ofList trees)))
                    :: cOut) x := by
                intro x hx
                unfold Treeish.nodes at hx
                rcases List.mem_cons.mp hx with rfl | hx
                · exact ⟨Treeish.mk x (TreeishList.ofList trees), List.mem_cons_self _ _⟩
                · obtain ⟨t, htt, hxt⟩ := (nodesList_ofList trees x).mp hx
                  rcases f5 t htt with h | ⟨_, _, hnodes⟩
                  · exact absurd h (List.not_mem_nil _)
                  · exact cachedSome_mono
                      (fun e3 he3 => List.mem_cons_of_mem _ he3) (hnodes x hxt)
              refine ⟨fun e2 he2 => List.mem_cons_of_mem _ (f1 e2 he2), ?_, ?_, ?_, ?_⟩
              · intro e2 he2
                rcases List.mem_cons.mp he2 with rfl | he2
                · exact Or.inr ⟨hv, hnc⟩
                · exact h2weak e2 he2
              · intro e2 he2 t het
                rcases List.mem_cons.mp he2 with rfl | he2
                · cases het
                  exact ⟨rfl, hsound, hnodes2⟩
                · obtain ⟨h1, h2, h3⟩ := f3 e2 he2 t het
                  exact ⟨h1, h2, fun x hx => cachedSome_mono
                    (fun e3 he3 => List.mem_cons_of_mem _ he3) (h3 x hx)⟩
              · intro v hvv r hr
                rcases List.mem_cons.mp hr with h | h
                · have hveq : v = node := congrArg Prod.fst h
                  exact hv (hveq ▸ hvv)
                · exact hfresh v hvv r h
              · intro t htt
                cases htt
                exact ⟨rfl, hsound, hnodes2⟩

theorem why_depends_all_sound (g : StorePathGraph) (target : String) :
    ∀ p ∈ why_depends_all g target, RootPathTo g target p := by
  have hfold : ∀ (roots : List String)
      (acc : List (List String) × List (String × Option Treeish)),
      CacheOk g target acc.2 →
      (∀ p ∈ acc.1, RootPathTo g target p) →
      (∀ r ∈ roots, r ∈ g.roots) →
      ∀ p ∈ (roots.foldl (fun acc root =>
          match build_treeish g target (whyDependsFuel g) root acc.2 [] with
          | (some tree, c) => (acc.1 ++ tree.toPaths, c)
          | (none, c) => (acc.1, c)) acc).1, RootPathTo g target p := by
    intro roots
    induction roots with
    | nil => intro acc _ hacc _ p hp; exact hacc p hp
    | cons r rs ihr =>
      intro acc hC hacc hroots p hp
      rw [List.foldl_cons] at hp
      have hpost := build_treeish_sound g target (whyDependsFuel g) r acc.2 []
        hC (fun v hv => absurd hv (List.not_mem_nil _))
      unfold BuildPost at hpost
      rcases hstep : build_treeish g target (whyDependsFuel g) r acc.2 [] with ⟨r1, c1⟩
      rw [hstep] at hpost hp
      obtain ⟨_, _, p3, _, p5⟩ := hpost
      cases r1 with
      | none =>
        exact ihr (acc.1, c1) p3 hacc
          (fun x hx => hroots x (List.mem_cons_of_mem _ hx)) p hp
      | some tree =>
        obtain ⟨htn, hts, _⟩ := p5 tree rfl
        refine ihr (acc.1 ++ tree.toPaths, c1) p3 ?_
          (fun x hx => hroots x (List.mem_cons_of_mem _ hx)) p hp
        intro q hq
        rcases List.mem_append.mp hq with h | h
        · exact hacc q h
        · obtain ⟨_, hhead⟩ := toPaths_shape tree q h
          obtain ⟨hh, hl, hn, hc⟩ := hts q h
          exact ⟨⟨r, hroots r (List.mem_cons_self _ _), by rw [hh, htn]⟩, hl, hn, hc⟩
  intro p hp
  unfold why_depends_all at hp
  cases hgt : g.get_path target with
  | none =>
    rw [hgt] at hp
    simp at hp
  | some sp0 =>
    rw [hgt] at hp
    dsimp only at hp
    exact hfold g.roots ([], []) (fun e he => absurd he (List.not_mem_nil _))
      (fun q hq => absurd hq (List.not_mem_nil _)) (fun r hr => hr) p hp

/-- C3 (as corrected): every path returned by `why_depends` is a simple
path from a declared root to the target — root-first, target-last, no id
repeated, following `references` edges forward — up to the 1000-path
truncation.  The converse claimed by the spec is FALSE: the memoization
cache shared across roots is filled while the cycle guard is active, so
in cyclic graphs simple paths that would fit under the cap can be
omitted (see the counterexample). -/
theorem why_depends_sound (g : StorePathGraph) (target : String) :
    ∀ p ∈ why_depends g target, RootPathTo g target p := by
  intro p hp
  unfold why_depends at hp
  exact why_depends_all_sound g target p (List.take_subset _ _ hp)

/-- C3 counterexample: on the cyclic graph `gMiss`, `R-X-Y-T` is a simple
root-to-target path and only one path is returned (far below the cap),
yet `R-X-Y-T` is missing: while `Y` is on the DFS stack the search from
`X` is cut by the cycle guard and `X ↦ none` is cached; the poisoned
entry is then reused when `X` is reached directly from the root `R`. -/
theorem why_depends_misses_simple_path :
    RootPathTo gMiss "T" ["R", "X", "Y", "T"] ∧
    ["R", "X", "Y", "T"] ∉ why_depends gMiss "T" ∧
    why_depends gMiss "T" = [["R", "Y", "T"]] :=
  ⟨by decide, by decide, by decide⟩

/-- Witness for C3: the one returned path on `gMiss` is indeed a simple
root-to-target path. -/
theorem why_depends_sound_witness :
    ["R", "Y", "T"] ∈ why_depends gMiss "T" ∧
    RootPathTo gMiss "T" ["R", "Y", "T"] :=
  ⟨by decide, why_depends_sound gMiss "T" ["R", "Y", "T"] (by decide)⟩

/-- C5 (as corrected): the result always holds at most 1000 paths and is
exactly the first 1000 paths of the traversal's enumeration in document
order; when the enumeration yields at most 1000 paths, the result is the
whole enumeration untruncated.  The cap applies to the enumerated paths:
because the enumeration itself can omit simple paths in cyclic graphs
(see C3), "more than 1000 paths exist in the graph" does not guarantee
1000 results, and "at most 1000 exist" does not guarantee that all of
them are returned. -/
theorem why_depends_truncation (g : StorePathGraph) (target : String) :
    (why_depends g target).length ≤ 1000 ∧
    why_depends g target = (why_depends_all g target).take 1000 ∧
    ((why_depends_all g target).length ≤ 1000 →
      why_depends g target = why_depends_all g target) := by
  refine ⟨?_, rfl, fun h => ?_⟩
  · rw [why_depends, List.length_take]
    exact Nat.min_le_left _ _
  · rw [why_depends]
    exact List.take_of_length_le h

/-- C5 counterexample: on `gMiss` two simple root-to-target paths exist
(well under 1000), yet the untruncated result contains only one of them —
not all existing paths are returned. -/
theorem why_depends_undercount_cex :
    RootPathTo gMiss "T" ["R", "Y", "T"] ∧
    RootPathTo gMiss "T" ["R", "X", "Y", "T"] ∧
    (why_depends gMiss "T").length = 1 :=
  ⟨by decide, by decide, by decide⟩

/-- Witness for C5 on `gMiss`: the enumeration is short, so the result is
returned untruncated. -/
theorem why_depends_truncation_witness :
    (why_depends gMiss "T").length ≤ 1000 ∧
    (why_depends_all gMiss "T").length ≤ 1000 ∧
    why_depends gMiss "T" = why_depends_all gMiss "T" :=
  ⟨(why_depends_truncation gMiss "T").1, by decide,
    (why_depends_truncation gMiss "T").2.2 (by decide)⟩

end NixTree
